import Mathlib

/-!
Verification model of the `document_processor` Rust crate
(src/rust_services/document_processor/src).

Rust `String`/`&str` values are modelled as `List Char` (the sequence of
Unicode scalar values).  Rust's byte-oriented operations (`str::len`,
byte-range slicing `text[a..b]`, `rfind` returning byte offsets) are
modelled through an explicit UTF-8 byte-length function; byte slicing is
partial and returns `none` exactly when an offset is not a character
boundary, which in Rust is a panic.  Byte buffers (`&[u8]`) are modelled
as `List Nat` with entries below 256.
-/

set_option maxRecDepth 4000

/-- Strings of the Rust code: a Rust `String` as its list of chars. -/
abbrev Str := List Char

/-- Conversion from Lean string literals to the model type. -/
def strOf (s : String) : Str := s.data

/-- Byte buffers (`&[u8]` / `Vec<u8>`). -/
abbrev Bytes := List Nat

/-- Model of Rust `char::is_whitespace` (Unicode `White_Space` property). -/
def rustIsWhitespace (c : Char) : Bool :=
  let n := c.toNat
  (0x09 ≤ n && n ≤ 0x0d) || n = 0x20 || n = 0x85 || n = 0xa0 || n = 0x1680 ||
  (0x2000 ≤ n && n ≤ 0x200a) || n = 0x2028 || n = 0x2029 || n = 0x202f ||
  n = 0x205f || n = 0x3000

/-- Model of Rust `char::is_control` (Unicode `Cc` category). -/
def rustIsControl (c : Char) : Bool :=
  c.toNat < 0x20 || (0x7f ≤ c.toNat && c.toNat ≤ 0x9f)

/-- Number of bytes of the UTF-8 encoding of a scalar value. -/
def utf8Width (c : Char) : Nat :=
  if c.toNat < 0x80 then 1
  else if c.toNat < 0x800 then 2
  else if c.toNat < 0x10000 then 3
  else 4

/-- Model of Rust `str::len`: the length in UTF-8 bytes. -/
def byteLen (s : Str) : Nat := (s.map utf8Width).sum

/-- Splits a string at a byte offset; `none` when the offset is not a
character boundary or exceeds the byte length (a panic in Rust). -/
def byteSplit : Str → Nat → Option (Str × Str)
  | s, 0 => some ([], s)
  | [], _ + 1 => none
  | c :: cs, n + 1 =>
    if utf8Width c ≤ n + 1 then
      (byteSplit cs (n + 1 - utf8Width c)).map (fun p => (c :: p.1, p.2))
    else none

/-- Model of the Rust slice `s[a..b]` by byte offsets (`none` = panic). -/
def byteSlice (s : Str) (a b : Nat) : Option Str :=
  if a ≤ b then
    (byteSplit s a).bind (fun p => (byteSplit p.2 (b - a)).map (fun q => q.1))
  else none

/-- Model of the Rust slice `s[a..]` by byte offset (`none` = panic). -/
def byteDropF (s : Str) (a : Nat) : Option Str :=
  (byteSplit s a).map (fun p => p.2)

/-- Model of Rust `str::trim`. -/
def trimStr (s : Str) : Str :=
  ((s.dropWhile rustIsWhitespace).reverse.dropWhile rustIsWhitespace).reverse

/-- Char index of the last char satisfying `p` (used for `Path::extension`). -/
def rfindIdx (p : Char → Bool) : Str → Option Nat
  | [] => none
  | c :: cs =>
    match rfindIdx p cs with
    | some i => some (i + 1)
    | none => if p c then some 0 else none

/-- Model of Rust `str::rfind(' ')`: byte offset of the last space. -/
def rfindSpaceByte : Str → Option Nat
  | [] => none
  | c :: cs =>
    match rfindSpaceByte cs with
    | some p => some (utf8Width c + p)
    | none => if c = ' ' then some 0 else none

/-- Model of Rust `str::find(' ')`: byte offset of the first space. -/
def findSpaceByte : Str → Option Nat
  | [] => none
  | c :: cs => if c = ' ' then some 0 else (findSpaceByte cs).map (fun p => utf8Width c + p)

/-- Model of Rust `str::split(sep)` for a one-char separator: the pieces
between occurrences, with empty leading/trailing pieces kept. -/
def splitOnCharStr (sep : Char) : Str → List Str
  | [] => [[]]
  | c :: cs =>
    let r := splitOnCharStr sep cs
    if c = sep then [] :: r else (c :: r.headD []) :: r.tail

/-- Model of Rust `str::split(sep)` for a multi-char separator, scanning
left to right over non-overlapping occurrences.  The fuel argument is an
upper bound on the number of scanning steps; each step consumes at least
one character, so the wrapper's fuel `s.length` is always sufficient. -/
def splitOnListGo (sep : Str) : Nat → Str → List Str
  | _, [] => [[]]
  | 0, s => [s]
  | f + 1, c :: cs =>
    if sep ≠ [] ∧ sep.isPrefixOf (c :: cs) then
      [] :: splitOnListGo sep f ((c :: cs).drop sep.length)
    else
      let r := splitOnListGo sep f cs
      (c :: r.headD []) :: r.tail

/-- Model of Rust `str::split(sep)` for a string separator. -/
def splitOnList (sep : Str) (s : Str) : List Str := splitOnListGo sep s.length s

/-- Model of Rust `str::replace(pat, rep)`: leftmost non-overlapping
occurrences.  Fuel as in `splitOnListGo`; `s.length` always suffices. -/
def replaceGo (pat rep : Str) : Nat → Str → Str
  | _, [] => []
  | 0, s => s
  | f + 1, c :: cs =>
    if pat ≠ [] ∧ pat.isPrefixOf (c :: cs) then
      rep ++ replaceGo pat rep f ((c :: cs).drop pat.length)
    else c :: replaceGo pat rep f cs

/-- Model of Rust `str::replace(pat, rep)` (the code only uses non-empty
patterns). -/
def replaceList (pat rep s : Str) : Str := replaceGo pat rep s.length s

/-- Model of Rust `str::matches(pat).count()`: the number of leftmost
non-overlapping occurrences of `pat` (non-empty in the code). -/
def matchesGo (pat : Str) : Nat → Str → Nat
  | _, [] => 0
  | 0, _ => 0
  | f + 1, c :: cs =>
    if pat ≠ [] ∧ pat.isPrefixOf (c :: cs) then
      1 + matchesGo pat f ((c :: cs).drop pat.length)
    else matchesGo pat f cs

/-- Model of Rust `str::matches(pat).count()`. -/
def matchesCount (pat s : Str) : Nat := matchesGo pat s.length s

/-- Model of Rust `str::contains` for a non-empty string pattern. -/
def containsSub (pat s : Str) : Bool := decide (0 < matchesCount pat s)

/-- Model of `str::to_lowercase`.  Lean's `Char.toLower` performs the
ASCII case mapping; every use below applies it to ASCII text, where it
agrees with Rust's full Unicode lowercasing. -/
def toLowerStr (s : Str) : Str := s.map Char.toLower

/-- Whether every char is ASCII (one UTF-8 byte, so byte offsets in the
Rust code coincide with char indices). -/
def allAscii (s : Str) : Bool := s.all (fun c => c.toNat < 0x80)

/-!
Chunking engine (`text_processor.rs`).

The character-window loop of `chunk_by_characters` need not terminate, and
the byte-offset slices inside the chunkers can panic on non-ASCII text, so
the chunkers live in `MRes`: `none` models running out of fuel (the loop
has not finished after that many iterations), `some (Except.error m)`
models a Rust panic with message `m`, and `some (Except.ok r)` a normal
return.  Fuel is threaded from the entry point and only the character
loop consumes it; all other recursions are structural.
-/

/-- Equality of `Except` values is decidable componentwise. -/
instance {ε α : Type} [DecidableEq ε] [DecidableEq α] : DecidableEq (Except ε α) := fun x y =>
  match x, y with
  | Except.ok a, Except.ok b =>
    if h : a = b then isTrue (by rw [h]) else isFalse (by simp [h])
  | Except.error a, Except.error b =>
    if h : a = b then isTrue (by rw [h]) else isFalse (by simp [h])
  | Except.ok _, Except.error _ => isFalse (by simp)
  | Except.error _, Except.ok _ => isFalse (by simp)

/-- Result of a fueled, possibly panicking computation. -/
abbrev MRes (α : Type) := Option (Except String α)

/-- Normal return. -/
def mret {α : Type} (a : α) : MRes α := some (Except.ok a)

/-- Sequencing that propagates fuel exhaustion and panics. -/
def mbind {α β : Type} : MRes α → (α → MRes β) → MRes β
  | none, _ => none
  | some (Except.error m), _ => some (Except.error m)
  | some (Except.ok a), f => f a

/-- Panic message of a byte slice not on a character boundary. -/
def boundaryPanic : String := "byte index is not a char boundary"

/-- Panic message of `Option::unwrap` on `None`. -/
def unwrapPanic : String := "called unwrap on a None value"

/-- The `ChunkOptions` struct. -/
structure ChunkOptions where
  respectSentences : Bool
  respectParagraphs : Bool
  minChunkSize : Nat
  maxChunkSize : Nat
deriving DecidableEq

/-- The `Default` impl of `ChunkOptions`. -/
def defaultChunkOptions : ChunkOptions :=
  { respectSentences := true
    respectParagraphs := true
    minChunkSize := 100
    maxChunkSize := 2000 }

/-- The function `get_text_overlap(text, overlap_size)`: the word-aligned
trailing `overlap_size` bytes of `text`.  The byte slices panic when
`text.len() - overlap_size` is not a character boundary. -/
def getTextOverlapE (text : Str) (ov : Nat) : Except String Str :=
  if byteLen text ≤ ov then Except.ok text
  else
    let startPos := byteLen text - ov
    match byteDropF text startPos with
    | none => Except.error boundaryPanic
    | some tail =>
      match findSpaceByte tail with
      | some p =>
        match byteDropF tail p with
        | none => Except.error boundaryPanic
        | some t2 => Except.ok (trimStr t2)
      | none => Except.ok tail

/-- The whitespace-skipping loop at the end of each `chunk_by_characters`
iteration: `while start < text.len() && text.chars().nth(start).unwrap()
.is_whitespace() { start += 1 }`.  Note the Rust code mixes a byte-length
guard with a char-index lookup; `nth` is modelled by the char-index
lookup `text[start]?`, whose `none` case is the `unwrap` panic.  The fuel
is `byteLen text - start` at entry: every iteration increments `start`
by one, so the guard fails after at most that many iterations, making
this fueled recursion exactly equivalent to the Rust loop. -/
def skipWsGo (text : Str) : Nat → Nat → Except String Nat
  | 0, start => Except.ok start
  | k + 1, start =>
    if start < byteLen text then
      match text[start]? with
      | none => Except.error unwrapPanic
      | some c =>
        if rustIsWhitespace c then skipWsGo text k (start + 1) else Except.ok start
    else Except.ok start

/-- Entry to the whitespace-skipping loop. -/
def skipWs (text : Str) (start : Nat) : Except String Nat :=
  skipWsGo text (byteLen text - start) start

/-- One-iteration body plus recursion of the `while start < text.len()`
loop of `chunk_by_characters`, on explicit fuel (the loop genuinely need
not terminate; see the C3 counterexample below). -/
def charsLoopF (text : Str) (cs ov : Nat) : Nat → Nat → List Str → MRes (List Str)
  | 0, _, _ => none
  | f + 1, start, chunks =>
    if start < byteLen text then
      let e := min (start + cs) (byteLen text)
      let chunkEndR : MRes Nat :=
        if e < byteLen text then
          match byteSlice text start e with
          | none => some (Except.error boundaryPanic)
          | some w =>
            match rfindSpaceByte w with
            | some p => mret (start + p)
            | none => mret e
        else mret e
      mbind chunkEndR (fun chunkEnd =>
        match byteSlice text start chunkEnd with
        | none => some (Except.error boundaryPanic)
        | some raw =>
          let chunk := trimStr raw
          let chunks2 := if chunk ≠ [] then chunks ++ [chunk] else chunks
          let start2 := if 0 < ov ∧ ov < chunkEnd then chunkEnd - ov else chunkEnd
          match skipWs text start2 with
          | Except.error m => some (Except.error m)
          | Except.ok start3 => charsLoopF text cs ov f start3 chunks2)
    else mret chunks

/-- The function `chunk_by_characters(text, chunk_size, overlap)`. -/
def chunkByCharsF (fuel : Nat) (text : Str) (cs ov : Nat) : MRes (List Str) :=
  if byteLen text ≤ cs then mret [text]
  else charsLoopF text cs ov fuel 0 []

/-- The function `split_into_sentences`.  The regex used by the Rust code
contains look-around, which the `regex` crate rejects, so `Regex::new`
returns `Err` and the fallback branch (split on a period, trim, drop
empty pieces) is the branch that always runs; only it is modelled. -/
def splitIntoSentences (text : Str) : List Str :=
  ((splitOnCharStr '.' text).map trimStr).filter (fun s => s ≠ [])

/-- The sentence loop of `chunk_by_sentences`: folds the sentence list
over the accumulator state (emitted chunks, current chunk). -/
def sentLoop (fuel cs ov : Nat) : List Str → List Str → Str → MRes (List Str)
  | [], chunks, current =>
    mret (if trimStr current ≠ [] then chunks ++ [trimStr current] else chunks)
  | s :: rest, chunks, current =>
    if cs < byteLen s then
      let chunks2 := if current ≠ [] then chunks ++ [trimStr current] else chunks
      mbind (chunkByCharsF fuel s cs ov)
        (fun sub => sentLoop fuel cs ov rest (chunks2 ++ sub) [])
    else if cs < byteLen current + byteLen s + 1 ∧ current ≠ [] then
      let chunks2 := chunks ++ [trimStr current]
      if 0 < ov ∧ 1 < chunks2.length then
        match getTextOverlapE current ov with
        | Except.error m => some (Except.error m)
        | Except.ok ot => sentLoop fuel cs ov rest chunks2 (ot ++ [' '] ++ s)
      else sentLoop fuel cs ov rest chunks2 s
    else
      sentLoop fuel cs ov rest chunks ((if current ≠ [] then current ++ [' '] else current) ++ s)

/-- The function `chunk_by_sentences(text, chunk_size, overlap, opts)`:
runs the sentence loop, then filters out chunks whose byte length is
below `min_chunk_size`. -/
def chunkBySentencesF (fuel : Nat) (text : Str) (cs ov : Nat) (opts : ChunkOptions) :
    MRes (List Str) :=
  mbind (sentLoop fuel cs ov (splitIntoSentences text) [] [])
    (fun chunks => mret (chunks.filter (fun c => opts.minChunkSize ≤ byteLen c)))

/-- The paragraph loop of `chunk_by_paragraphs`, one step per paragraph. -/
def paraLoop (fuel cs ov : Nat) (opts : ChunkOptions) : List Str → List Str → Str → MRes (List Str)
  | [], chunks, current =>
    mret (if trimStr current ≠ [] then chunks ++ [trimStr current] else chunks)
  | p :: rest, chunks, current =>
    if cs < byteLen p then
      let chunks2 := if current ≠ [] then chunks ++ [trimStr current] else chunks
      mbind (if opts.respectSentences then chunkBySentencesF fuel p cs ov opts
             else chunkByCharsF fuel p cs ov)
        (fun sub => paraLoop fuel cs ov opts rest (chunks2 ++ sub) [])
    else if cs < byteLen current + byteLen p + 2 ∧ current ≠ [] then
      let chunks2 := chunks ++ [trimStr current]
      if 0 < ov ∧ 1 < chunks2.length then
        match getTextOverlapE current ov with
        | Except.error m => some (Except.error m)
        | Except.ok ot => paraLoop fuel cs ov opts rest chunks2 (ot ++ strOf "\n\n" ++ p)
      else paraLoop fuel cs ov opts rest chunks2 p
    else
      paraLoop fuel cs ov opts rest chunks
        ((if current ≠ [] then current ++ strOf "\n\n" else current) ++ p)

/-- The function `chunk_by_paragraphs(text, chunk_size, overlap, opts)`:
splits on blank lines, runs the paragraph loop, then filters out chunks
whose byte length is below `min_chunk_size`. -/
def chunkByParagraphsF (fuel : Nat) (text : Str) (cs ov : Nat) (opts : ChunkOptions) :
    MRes (List Str) :=
  mbind (paraLoop fuel cs ov opts (splitOnList (strOf "\n\n") text) [] [])
    (fun chunks => mret (chunks.filter (fun c => opts.minChunkSize ≤ byteLen c)))

/-- The public entry `chunk_text(text, chunk_size, overlap, options)`. -/
def chunkTextF (fuel : Nat) (text : Str) (cs ov : Nat) (options : Option ChunkOptions) :
    MRes (List Str) :=
  let opts := options.getD defaultChunkOptions
  if byteLen text ≤ cs then mret [text]
  else if opts.respectParagraphs then chunkByParagraphsF fuel text cs ov opts
  else if opts.respectSentences then chunkBySentencesF fuel text cs ov opts
  else chunkByCharsF fuel text cs ov

/-!
Language detection (`text_processor.rs`).
-/

/-- The fixed stop-word lists of `detect_latin_language`. -/
def englishWords : List Str :=
  [strOf "the", strOf "and", strOf "of", strOf "to", strOf "a", strOf "in", strOf "is",
   strOf "it", strOf "you", strOf "that"]

/-- Spanish stop words. -/
def spanishWords : List Str :=
  [strOf "el", strOf "la", strOf "de", strOf "que", strOf "y", strOf "a", strOf "en",
   strOf "un", strOf "es", strOf "se"]

/-- French stop words. -/
def frenchWords : List Str :=
  [strOf "le", strOf "de", strOf "et", strOf "à", strOf "un", strOf "il", strOf "être",
   strOf "et", strOf "en", strOf "avoir"]

/-- German stop words. -/
def germanWords : List Str :=
  [strOf "der", strOf "die", strOf "und", strOf "in", strOf "den", strOf "von", strOf "zu",
   strOf "das", strOf "mit", strOf "sich"]

/-- Sum of the substring-occurrence counts of a word list. -/
def scoreWords (ws : List Str) (t : Str) : Nat := (ws.map (fun w => matchesCount w t)).sum

/-- Model of `Iterator::max_by_key`: the maximum by key, returning the
last maximal element on ties (per the Rust documentation). -/
def maxByKeyLast (l : List (Str × Nat)) : Option (Str × Nat) :=
  l.foldl
    (fun acc x =>
      match acc with
      | none => some x
      | some a => if a.2 ≤ x.2 then some x else some a)
    none

/-- The function `detect_latin_language`. -/
def detectLatinLanguage (text : Str) : Str :=
  let tl := toLowerStr text
  let scores : List (Str × Nat) :=
    [(strOf "en", scoreWords englishWords tl),
     (strOf "es", scoreWords spanishWords tl),
     (strOf "fr", scoreWords frenchWords tl),
     (strOf "de", scoreWords germanWords tl)]
  match maxByKeyLast scores with
  | some p => p.1
  | none => strOf "en"

/-- The public entry `detect_language(text)`: script-range checks first,
then Latin-script word-frequency scoring. -/
def detectLanguage (text : Str) : Str :=
  if text.any (fun c =>
      (0x4e00 ≤ c.toNat && c.toNat ≤ 0x9fff) || (0x3400 ≤ c.toNat && c.toNat ≤ 0x4dbf) ||
      (0x20000 ≤ c.toNat && c.toNat ≤ 0x2a6df)) then strOf "zh"
  else if text.any (fun c =>
      (0x3040 ≤ c.toNat && c.toNat ≤ 0x309f) || (0x30a0 ≤ c.toNat && c.toNat ≤ 0x30ff)) then
    strOf "ja"
  else if text.any (fun c => 0xac00 ≤ c.toNat && c.toNat ≤ 0xd7af) then strOf "ko"
  else if text.any (fun c => 0x0400 ≤ c.toNat && c.toNat ≤ 0x04ff) then strOf "ru"
  else if text.any (fun c => 0x0600 ≤ c.toNat && c.toNat ≤ 0x06ff) then strOf "ar"
  else detectLatinLanguage text

/-!
Text cleaning (`text_processor.rs`).
-/

/-- The `CleanOptions` struct. -/
structure CleanOptions where
  normalizeUnicode : Bool
  removeExtraWhitespace : Bool
  fixEncoding : Bool
  removeControlChars : Bool
  normalizeLineEndings : Bool
deriving DecidableEq

/-- The `Default` impl of `CleanOptions` (all steps enabled). -/
def defaultCleanOptions : CleanOptions :=
  { normalizeUnicode := true
    removeExtraWhitespace := true
    fixEncoding := true
    removeControlChars := true
    normalizeLineEndings := true }

/-- Model of NFC normalization from the external `unicode_normalization`
crate (`str::nfc`).  NFC is the identity on ASCII text; every theorem
below applies this model to ASCII strings only, where it is exact.  On
general Unicode the model is inexact (NFC may compose combining
sequences), so no claim about non-ASCII cleaning is settled with it. -/
def nfcModel (s : Str) : Str := s

/-- The replacement table of `fix_encoding_issues`.  The em-dash and
en-dash source lines are mojibake-corrupted in the repository (their
pattern literals do not lex as Rust strings); those two patterns are
modelled from the declared intent, as the cp1252 misreadings of the
UTF-8 bytes of the dashes.  Every pattern starts with a non-ASCII char,
which is all the theorems below rely on. -/
def encodingReplacements : List (Str × Str) :=
  [(strOf "â€™", [Char.ofNat 39]),
   (strOf "â€œ", [Char.ofNat 34]),
   (strOf "â€", [Char.ofNat 34]),
   (strOf "â€" ++ [Char.ofNat 0x201d], strOf "—"),
   (strOf "â€" ++ [Char.ofNat 0x201c], strOf "–"),
   (strOf "â€¢", strOf "•"),
   (strOf "Ã¡", strOf "á"),
   (strOf "Ã©", strOf "é"),
   (strOf "Ã" ++ [Char.ofNat 0xad], strOf "í"),
   (strOf "Ã³", strOf "ó"),
   (strOf "Ãº", strOf "ú")]

/-- The function `fix_encoding_issues`: sequential replacements. -/
def fixEncodingIssues (s : Str) : Str :=
  encodingReplacements.foldl (fun acc pr => replaceList pr.1 pr.2 acc) s

/-- The function `remove_control_characters`. -/
def removeControlCharacters (s : Str) : Str :=
  s.filter (fun c => !rustIsControl c || c = '\n' || c = '\t' || c = '\r')

/-- The function `normalize_line_endings`: first `\r\n` to `\n`, then
every remaining `\r` to `\n` (a one-char replace is a char map). -/
def normalizeLineEndingsF (s : Str) : Str :=
  (replaceList (strOf "\r\n") (strOf "\n") s).map (fun c => if c = '\r' then '\n' else c)

/-- Horizontal whitespace of the regex `[ \t]+`. -/
def isSpaceTab (c : Char) : Bool := c = ' ' || c = '\t'

/-- Model of `Regex::new(r"[ \t]+").replace_all(s, " ")`: every maximal
run of spaces and tabs becomes a single space.  Fuel bound `s.length`
always suffices (each step consumes at least one char). -/
def collapseSTGo : Nat → Str → Str
  | _, [] => []
  | 0, s => s
  | f + 1, c :: cs =>
    if isSpaceTab c then ' ' :: collapseSTGo f (cs.dropWhile isSpaceTab)
    else c :: collapseSTGo f cs

/-- Wrapper of `collapseSTGo` with sufficient fuel. -/
def collapseSpaceTabs (s : Str) : Str := collapseSTGo s.length s

/-- Model of the newline-run regex replacement: every maximal run of 3 or
more newlines becomes exactly two; shorter runs are kept. -/
def collapseNLGo : Nat → Str → Str
  | _, [] => []
  | 0, s => s
  | f + 1, c :: cs =>
    if c = '\n' then
      let k := 1 + (cs.takeWhile (fun d => d = '\n')).length
      List.replicate (if 3 ≤ k then 2 else k) '\n' ++
        collapseNLGo f (cs.dropWhile (fun d => d = '\n'))
    else c :: collapseNLGo f cs

/-- Wrapper of `collapseNLGo` with sufficient fuel. -/
def collapseNewlineRuns (s : Str) : Str := collapseNLGo s.length s

/-- A line of `str::lines` has any trailing carriage return removed. -/
def stripTrailingCR (l : Str) : Str := if l.getLast? = some '\r' then l.dropLast else l

/-- Model of Rust `str::lines`: split on `\n`, drop the final empty piece
produced by a trailing newline, strip a trailing `\r` from each line. -/
def rustLines (s : Str) : List Str :=
  if s = [] then []
  else
    let ps := splitOnCharStr '\n' s
    (if s.getLast? = some '\n' then ps.dropLast else ps).map stripTrailingCR

/-- Joining with a one-char separator (`Vec::join("\n")`). -/
def joinSep (sep : Char) (ls : List Str) : Str := List.intercalate [sep] ls

/-- The function `normalize_whitespace` of `text_processor.rs`. -/
def normalizeWhitespaceT (s : Str) : Str :=
  let s1 := collapseSpaceTabs s
  let s2 := collapseNewlineRuns s1
  let s3 := joinSep '\n' ((rustLines s2).map trimStr)
  trimStr s3

/-- The public entry `clean_text(text, options)`. -/
def cleanText (text : Str) (options : Option CleanOptions) : Str :=
  let opts := options.getD defaultCleanOptions
  let r1 := if opts.normalizeUnicode then nfcModel text else text
  let r2 := if opts.fixEncoding then fixEncodingIssues r1 else r1
  let r3 := if opts.removeControlChars then removeControlCharacters r2 else r2
  let r4 := if opts.normalizeLineEndings then normalizeLineEndingsF r3 else r3
  if opts.removeExtraWhitespace then normalizeWhitespaceT r4 else r4

/-!
Error taxonomy (`error.rs`) and parser layer (`parsers/`, `utils.rs`,
`lib.rs`).
-/

/-- The `DocumentError` enum of `error.rs`. -/
inductive DocError : Type where
  | unsupportedFormat (format : Str)
  | ioError (msg : Str)
  | pdfError (msg : Str)
  | docxError (msg : Str)
  | excelError (msg : Str)
  | powerPointError (msg : Str)
  | rtfError (msg : Str)
  | htmlError (msg : Str)
  | xmlError (msg : Str)
  | csvError (msg : Str)
  | jsonError (msg : Str)
  | encodingError (msg : Str)
  | ocrError (msg : Str)
  | archiveError (msg : Str)
  | emptyDocument
  | corruptedDocument (reason : Str)
  | documentTooLarge (size maxSize : Nat)
  | timeout
  | invalidConfig (msg : Str)
  | outOfMemory
  | unknown (msg : Str)
deriving DecidableEq

/-- Decimal rendering of a `usize` for error display. -/
def natStr (n : Nat) : Str := (Nat.repr n).data

/-- The `Display` impl of `DocumentError` (the `thiserror` format strings). -/
def displayDocError : DocError → Str
  | DocError.unsupportedFormat f => strOf "Unsupported file format: " ++ f
  | DocError.ioError m => strOf "IO error: " ++ m
  | DocError.pdfError m => strOf "PDF parsing error: " ++ m
  | DocError.docxError m => strOf "DOCX parsing error: " ++ m
  | DocError.excelError m => strOf "Excel parsing error: " ++ m
  | DocError.powerPointError m => strOf "PowerPoint parsing error: " ++ m
  | DocError.rtfError m => strOf "RTF parsing error: " ++ m
  | DocError.htmlError m => strOf "HTML parsing error: " ++ m
  | DocError.xmlError m => strOf "XML parsing error: " ++ m
  | DocError.csvError m => strOf "CSV parsing error: " ++ m
  | DocError.jsonError m => strOf "JSON parsing error: " ++ m
  | DocError.encodingError m => strOf "Text encoding error: " ++ m
  | DocError.ocrError m => strOf "OCR error: " ++ m
  | DocError.archiveError m => strOf "Archive error: " ++ m
  | DocError.emptyDocument => strOf "Empty document"
  | DocError.corruptedDocument r => strOf "Corrupted document: " ++ r
  | DocError.documentTooLarge s m =>
    strOf "Document too large: " ++ natStr s ++ strOf " bytes (max: " ++ natStr m ++
      strOf " bytes)"
  | DocError.timeout => strOf "Processing timeout"
  | DocError.invalidConfig m => strOf "Invalid configuration: " ++ m
  | DocError.outOfMemory => strOf "Memory allocation error"
  | DocError.unknown m => strOf "Unknown error: " ++ m

/-- The `ParseOptions` struct of `parsers/mod.rs`. -/
structure ParseOptions where
  enableOcr : Bool
  extractTables : Bool
  extractImages : Bool
  language : Option Str
  maxPages : Option Nat
  extractMetadata : Bool
  preserveFormatting : Bool
deriving DecidableEq

/-- The `Default` impl of `ParseOptions`. -/
def defaultParseOptions : ParseOptions :=
  { enableOcr := false
    extractTables := true
    extractImages := false
    language := none
    maxPages := none
    extractMetadata := true
    preserveFormatting := false }

/-- Whether a byte is a UTF-8 continuation byte. -/
def contB (x : Nat) : Bool := 0x80 ≤ x && x ≤ 0xbf

/-- Model of `std::str::from_utf8`: strict UTF-8 decoding, `none` on any
invalid sequence (overlong forms, surrogates and out-of-range values are
rejected by the byte-range table).  The fuel is an upper bound on the
number of decoded chars; each step consumes at least one byte, so the
wrapper's fuel `length` always suffices. -/
def utf8DecodeGo : Nat → Bytes → Option Str
  | _, [] => some []
  | 0, _ => none
  | f + 1, b :: bs =>
    if b < 0x80 then (utf8DecodeGo f bs).map (fun r => Char.ofNat b :: r)
    else if 0xc2 ≤ b ∧ b ≤ 0xdf then
      match bs with
      | b2 :: bs2 =>
        if contB b2 then
          (utf8DecodeGo f bs2).map (fun r => Char.ofNat ((b - 0xc0) * 64 + (b2 - 0x80)) :: r)
        else none
      | [] => none
    else if 0xe0 ≤ b ∧ b ≤ 0xef then
      match bs with
      | b2 :: b3 :: bs3 =>
        let b2ok :=
          if b = 0xe0 then 0xa0 ≤ b2 && b2 ≤ 0xbf
          else if b = 0xed then 0x80 ≤ b2 && b2 ≤ 0x9f
          else contB b2
        if b2ok ∧ contB b3 then
          (utf8DecodeGo f bs3).map
            (fun r => Char.ofNat ((b - 0xe0) * 4096 + (b2 - 0x80) * 64 + (b3 - 0x80)) :: r)
        else none
      | _ => none
    else if 0xf0 ≤ b ∧ b ≤ 0xf4 then
      match bs with
      | b2 :: b3 :: b4 :: bs4 =>
        let b2ok :=
          if b = 0xf0 then 0x90 ≤ b2 && b2 ≤ 0xbf
          else if b = 0xf4 then 0x80 ≤ b2 && b2 ≤ 0x8f
          else contB b2
        if b2ok ∧ contB b3 ∧ contB b4 then
          (utf8DecodeGo f bs4).map
            (fun r =>
              Char.ofNat
                ((b - 0xf0) * 262144 + (b2 - 0x80) * 4096 + (b3 - 0x80) * 64 + (b4 - 0x80)) :: r)
        else none
      | _ => none
    else none

/-- Model of `std::str::from_utf8`. -/
def utf8Decode (bs : Bytes) : Option Str := utf8DecodeGo bs.length bs

/-- Model of `String::from_utf8_lossy`.  Valid sequences decode as in
`utf8Decode`; an invalid byte becomes one U+FFFD replacement char and is
skipped.  (Rust replaces each maximal invalid subsequence with a single
U+FFFD, which can differ on multi-byte garbage; no claim below feeds
invalid UTF-8 to a lossy decode, so the deviation is unexercised.) -/
def utf8LossyGo : Nat → Bytes → Str
  | _, [] => []
  | 0, _ => []
  | f + 1, b :: bs =>
    if b < 0x80 then Char.ofNat b :: utf8LossyGo f bs
    else if 0xc2 ≤ b ∧ b ≤ 0xdf then
      match bs with
      | b2 :: bs2 =>
        if contB b2 then Char.ofNat ((b - 0xc0) * 64 + (b2 - 0x80)) :: utf8LossyGo f bs2
        else Char.ofNat 0xfffd :: utf8LossyGo f bs
      | [] => [Char.ofNat 0xfffd]
    else if 0xe0 ≤ b ∧ b ≤ 0xef then
      match bs with
      | b2 :: b3 :: bs3 =>
        let b2ok :=
          if b = 0xe0 then 0xa0 ≤ b2 && b2 ≤ 0xbf
          else if b = 0xed then 0x80 ≤ b2 && b2 ≤ 0x9f
          else contB b2
        if b2ok ∧ contB b3 then
          Char.ofNat ((b - 0xe0) * 4096 + (b2 - 0x80) * 64 + (b3 - 0x80)) :: utf8LossyGo f bs3
        else Char.ofNat 0xfffd :: utf8LossyGo f bs
      | bs2 => Char.ofNat 0xfffd :: utf8LossyGo f bs2
    else if 0xf0 ≤ b ∧ b ≤ 0xf4 then
      match bs with
      | b2 :: b3 :: b4 :: bs4 =>
        let b2ok :=
          if b = 0xf0 then 0x90 ≤ b2 && b2 ≤ 0xbf
          else if b = 0xf4 then 0x80 ≤ b2 && b2 ≤ 0x8f
          else contB b2
        if b2ok ∧ contB b3 ∧ contB b4 then
          Char.ofNat ((b - 0xf0) * 262144 + (b2 - 0x80) * 4096 + (b3 - 0x80) * 64 + (b4 - 0x80)) ::
            utf8LossyGo f bs4
        else Char.ofNat 0xfffd :: utf8LossyGo f bs
      | bs2 => Char.ofNat 0xfffd :: utf8LossyGo f bs2
    else Char.ofNat 0xfffd :: utf8LossyGo f bs

/-- Model of `String::from_utf8_lossy`. -/
def utf8DecodeLossy (bs : Bytes) : Str := utf8LossyGo bs.length bs

/-!
CSV parsing (`parsers/csv.rs`).  The external `csv` crate's default
`Reader` is modelled at record level: the first line of the (lossily
decoded) content is the header record and the remaining lines are the
data records, each split on commas.  Quoted-field handling of the crate
is not modelled; every claim below uses simple unquoted rows, where this
model is exact.
-/

/-- Fields of one CSV line under the record-level model. -/
def csvFieldsOfLine (l : Str) : List Str := splitOnCharStr ',' l

/-- The text built from one record: fields joined with a tab when
`preserve_formatting` is set, with a space otherwise. -/
def csvRowText (opts : ParseOptions) (r : List Str) : Str :=
  List.intercalate (if opts.preserveFormatting then strOf "\t" else strOf " ") r

/-- The truncation marker literal of `parse_csv`. -/
def csvMarker : Str := strOf "... (truncated, too many rows)"

/-- The record loop of `parse_csv`: pushes each record's line, increments
`row_count`, and after pushing a row whose count exceeds 10000 appends
the marker line and breaks. -/
def csvLoop (opts : ParseOptions) : List (List Str) → Nat → Str → Str
  | [], _, text => text
  | r :: rest, n, text =>
    let t2 := text ++ csvRowText opts r ++ strOf "\n"
    let n2 := n + 1
    if 10000 < n2 then t2 ++ csvMarker ++ strOf "\n"
    else csvLoop opts rest n2 t2

/-- The function `parse_csv` over the record-level reader model: optional
header record, then the data records. -/
def parseCsvRecords (headers : Option (List Str)) (records : List (List Str))
    (opts : ParseOptions) : Except DocError Str :=
  let t0 : Str :=
    if opts.preserveFormatting then
      match headers with
      | some hs => strOf "Headers: " ++ List.intercalate (strOf ", ") hs ++ strOf "\n\n"
      | none => []
    else []
  let t := csvLoop opts records 0 t0
  if trimStr t = [] then Except.error (DocError.csvError (strOf "No data found in CSV"))
  else Except.ok t

/-- The function `parse_csv(content, options)` on bytes: lossy decode,
then the record-level reader model. -/
def parseCsvBytes (content : Bytes) (opts : ParseOptions) : Except DocError Str :=
  let s := utf8DecodeLossy content
  match rustLines s with
  | [] => parseCsvRecords none [] opts
  | h :: rs => parseCsvRecords (some (csvFieldsOfLine h)) (rs.map csvFieldsOfLine) opts

/-!
Type detection (`utils.rs`).
-/

/-- The extension match of `detect_file_type` (the `match ext_lower`). -/
def extMatch (e : Str) : Option Str :=
  if e = strOf "pdf" then some (strOf "pdf")
  else if e = strOf "docx" then some (strOf "docx")
  else if e = strOf "doc" then some (strOf "doc")
  else if e = strOf "xlsx" then some (strOf "xlsx")
  else if e = strOf "xls" then some (strOf "xls")
  else if e = strOf "pptx" then some (strOf "pptx")
  else if e = strOf "ppt" then some (strOf "ppt")
  else if e = strOf "txt" then some (strOf "txt")
  else if e = strOf "md" then some (strOf "markdown")
  else if e = strOf "rtf" then some (strOf "rtf")
  else if e = strOf "html" ∨ e = strOf "htm" then some (strOf "html")
  else if e = strOf "xml" then some (strOf "xml")
  else if e = strOf "csv" then some (strOf "csv")
  else if e = strOf "json" then some (strOf "json")
  else if e = strOf "yaml" ∨ e = strOf "yml" then some (strOf "yaml")
  else if e = strOf "epub" then some (strOf "epub")
  else if e = strOf "odt" then some (strOf "odt")
  else if e = strOf "ods" then some (strOf "ods")
  else if e = strOf "odp" then some (strOf "odp")
  else none

/-- The supported extension-to-kind table (the arms of `extMatch`). -/
def extKindTable : List (Str × Str) :=
  [(strOf "pdf", strOf "pdf"), (strOf "docx", strOf "docx"), (strOf "doc", strOf "doc"),
   (strOf "xlsx", strOf "xlsx"), (strOf "xls", strOf "xls"), (strOf "pptx", strOf "pptx"),
   (strOf "ppt", strOf "ppt"), (strOf "txt", strOf "txt"), (strOf "md", strOf "markdown"),
   (strOf "rtf", strOf "rtf"), (strOf "html", strOf "html"), (strOf "htm", strOf "html"),
   (strOf "xml", strOf "xml"), (strOf "csv", strOf "csv"), (strOf "json", strOf "json"),
   (strOf "yaml", strOf "yaml"), (strOf "yml", strOf "yaml"), (strOf "epub", strOf "epub"),
   (strOf "odt", strOf "odt"), (strOf "ods", strOf "ods"), (strOf "odp", strOf "odp")]

/-- Model of `std::path::Path::file_name` for Unix-style paths: the
components parser splits on the separator and skips empty and `.`
entries; the file name is the last remaining component, and there is
none when nothing remains or when the path terminates in `..`. -/
def pathFileName (f : Str) : Option Str :=
  match ((splitOnCharStr '/' f).filter (fun c => c ≠ [] ∧ c ≠ strOf ".")).getLast? with
  | none => none
  | some c => if c = strOf ".." then none else some c

/-- The extension split of a file name, per `std::path::Path::extension`:
the portion after the last dot; nothing when there is no dot or when the
only dot starts the name. -/
def extOfFileName (name : Str) : Option Str :=
  match rfindIdx (fun c => c = '.') name with
  | none => none
  | some 0 => none
  | some (i + 1) => some (name.drop (i + 2))

/-- Model of `std::path::Path::extension`: the extension split of the
file name of the path. -/
def pathExtension (f : Str) : Option Str :=
  (pathFileName f).bind extOfFileName

/-- The kind resolved by the filename extension alone (extension match of
`detect_file_type` after lowercasing). -/
def extResolvedKind (f : Str) : Option Str :=
  (pathExtension f).bind (fun e => extMatch (toLowerStr e))

/-- Placeholder model of the external `zip` crate (`ZipArchive::new` and
the entry-name iteration of `detect_office_format`).  Always an archive
error; no claim below reaches ZIP-interior detection, so nothing is
proved about it. -/
def zipEntryNames (_content : Bytes) : Except String (List Str) :=
  Except.error "zip archive model"

/-- The entry-name scan of `detect_office_format`. -/
def officeScan : List Str → Option Str
  | [] => none
  | n :: rest =>
    if n = strOf "word/document.xml" then some (strOf "docx")
    else if n = strOf "xl/workbook.xml" then some (strOf "xlsx")
    else if n = strOf "ppt/presentation.xml" then some (strOf "pptx")
    else if n = strOf "content.xml" then some (strOf "odt")
    else officeScan rest

/-- The function `detect_office_format`. -/
def detectOfficeFormat (content : Bytes) : Except DocError Str :=
  match zipEntryNames content with
  | Except.error m => Except.error (DocError.archiveError (strOf m))
  | Except.ok names =>
    match officeScan names with
    | some k => Except.ok k
    | none =>
      if names.contains (strOf "META-INF/container.xml") then Except.ok (strOf "epub")
      else Except.ok (strOf "zip")

/-- The function `detect_from_content` (magic bytes, then sniffing). -/
def detectFromContent (content : Bytes) : Except DocError Str :=
  if content = [] then Except.error DocError.emptyDocument
  else
    let m4 := content.take 4
    if 4 ≤ content.length ∧ m4 = [0x25, 0x50, 0x44, 0x46] then Except.ok (strOf "pdf")
    else if 4 ≤ content.length ∧ (m4 = [0x50, 0x4b, 0x03, 0x04] ∨ m4 = [0x50, 0x4b, 0x05, 0x06])
      then detectOfficeFormat content
    else if 4 ≤ content.length ∧ m4 = [0xd0, 0xcf, 0x11, 0xe0] then
      Except.ok (strOf "legacy_office")
    else if 5 ≤ content.length ∧ content.take 5 = [0x7b, 0x5c, 0x72, 0x74, 0x66] then
      Except.ok (strOf "rtf")
    else if 5 ≤ content.length ∧
        (let sl := toLowerStr (utf8DecodeLossy (content.take (min 100 content.length)))
         containsSub (strOf "<!doctype html") sl ∨ containsSub (strOf "<html") sl) then
      Except.ok (strOf "html")
    else
      match utf8Decode content with
      | some text =>
        let ts := text.dropWhile rustIsWhitespace
        if ts.head? = some (Char.ofNat 0x7b) ∨ ts.head? = some (Char.ofNat 0x5b) then
          Except.ok (strOf "json")
        else if ((rustLines text).take 5).any (fun l => l.contains ',') then
          Except.ok (strOf "csv")
        else if (strOf "<?xml").isPrefixOf ts ∨ ts.head? = some '<' then
          Except.ok (strOf "xml")
        else if containsSub (strOf "---") text ∨
            (rustLines text).any (fun l => containsSub (strOf ": ") l) then
          Except.ok (strOf "yaml")
        else Except.ok (strOf "txt")
      | none => Except.error (DocError.unsupportedFormat (strOf "unknown"))

/-- The public function `detect_file_type(filename, content)`: extension
first, content-based detection as the fallback. -/
def detectFileType (filename : Str) (content : Bytes) : Except DocError Str :=
  match pathExtension filename with
  | some e =>
    match extMatch (toLowerStr e) with
    | some k => Except.ok k
    | none => detectFromContent content
  | none => detectFromContent content

/-- The function `validate_file_size`. -/
def validateFileSize (content : Bytes) (maxSize : Nat) : Except DocError Unit :=
  if maxSize < content.length then
    Except.error (DocError.documentTooLarge content.length maxSize)
  else Except.ok ()

/-!
Dispatcher (`parsers/mod.rs`) and the batch entry point (`lib.rs`).
-/

/-- Placeholder model of the per-format extractors other than CSV: per
spec section 1 they are external collaborators out of core scope
(black-box converters), so each is modelled as an opaque typed failure
tagged with its format.  No claim below depends on an extractor's
output. -/
def externParser (name : Str) (_content : Bytes) (_opts : ParseOptions) : Except DocError Str :=
  Except.error (DocError.unknown (strOf "external parser model: " ++ name))

/-- The function `parse_document(content, filename, options)`: size
validation, type detection, then dispatch on the detected kind. -/
def parseDocument (content : Bytes) (filename : Str) (options : Option ParseOptions) :
    Except DocError Str :=
  let opts := options.getD defaultParseOptions
  match validateFileSize content (100 * 1024 * 1024) with
  | Except.error e => Except.error e
  | Except.ok _ =>
    match detectFileType filename content with
    | Except.error e => Except.error e
    | Except.ok ft =>
      if ft = strOf "pdf" then externParser (strOf "pdf") content opts
      else if ft = strOf "docx" then externParser (strOf "docx") content opts
      else if ft = strOf "doc" then externParser (strOf "doc") content opts
      else if ft = strOf "xlsx" then externParser (strOf "xlsx") content opts
      else if ft = strOf "xls" then externParser (strOf "xls") content opts
      else if ft = strOf "pptx" then externParser (strOf "pptx") content opts
      else if ft = strOf "ppt" then externParser (strOf "ppt") content opts
      else if ft = strOf "txt" then externParser (strOf "txt") content opts
      else if ft = strOf "markdown" then externParser (strOf "markdown") content opts
      else if ft = strOf "html" then externParser (strOf "html") content opts
      else if ft = strOf "rtf" then externParser (strOf "rtf") content opts
      else if ft = strOf "csv" then parseCsvBytes content opts
      else if ft = strOf "json" then externParser (strOf "json") content opts
      else if ft = strOf "xml" then externParser (strOf "xml") content opts
      else if ft = strOf "yaml" then externParser (strOf "yaml") content opts
      else if ft = strOf "epub" then externParser (strOf "epub") content opts
      else if ft = strOf "odt" then externParser (strOf "odt") content opts
      else if ft = strOf "ods" then externParser (strOf "ods") content opts
      else if ft = strOf "odp" then externParser (strOf "odp") content opts
      else Except.error (DocError.unsupportedFormat ft)

/-- The per-item wrapping of `process_batch_documents` in `lib.rs`: a
parse error becomes a Python runtime error message. -/
def processOneDocument (content : Bytes) (filename : Str) (options : Option ParseOptions) :
    Except Str Str :=
  match parseDocument content filename options with
  | Except.ok t => Except.ok t
  | Except.error e => Except.error (strOf "Document parsing failed: " ++ displayDocError e)

/-- The batch entry `process_batch_documents(documents, options)`. -/
def processBatchDocuments (documents : List (Bytes × Str)) (options : Option ParseOptions) :
    List (Except Str Str) :=
  documents.map (fun d => processOneDocument d.1 d.2 options)

/-- Verification predicate: no two adjacent space-or-tab chars (the
shape of `collapseSpaceTabs` output). -/
def noTwoST : Str → Bool
  | [] => true
  | [_] => true
  | a :: b :: t => (!(isSpaceTab a && isSpaceTab b)) && noTwoST (b :: t)

/-- Termination of a `chunk_text` call: some fuel makes the fueled model
finish (normally or with a panic). -/
def chunkTextTerminates (text : Str) (cs ov : Nat) (options : Option ChunkOptions) : Prop :=
  ∃ f r, chunkTextF f text cs ov options = some r

/-!
Theorems.  Each claim of the specification is settled below; helper
lemmas are shared, and each claim has exactly one main theorem (plus a
counterexample and a witness where required).
-/

@[simp] theorem mbind_none {α β : Type} (f : α → MRes β) : mbind none f = none := rfl

@[simp] theorem mbind_error {α β : Type} (m : String) (f : α → MRes β) :
    mbind (some (Except.error m)) f = some (Except.error m) := rfl

@[simp] theorem mbind_ret {α β : Type} (a : α) (f : α → MRes β) : mbind (mret a) f = f a := rfl

example : byteLen (strOf "你好") = 6 := by decide

example : byteSlice (strOf "你好") 0 3 = some (strOf "你") := by decide

example : byteSlice (strOf "你好") 0 2 = none := by decide

example : trimStr (strOf "  ab c  ") = strOf "ab c" := by decide

example : splitOnList (strOf "xx") (strOf "axxxxb") = [strOf "a", strOf "", strOf "b"] := by decide

example : replaceList (strOf "ab") (strOf "z") (strOf "cabab") = strOf "czz" := by decide

example : matchesCount (strOf "el") (strOf "hello world") = 1 := by decide

example : rfindSpaceByte (strOf "ab c") = some 2 := by decide

example : findSpaceByte (strOf "ab c d") = some 2 := by decide

example : rfindIdx (fun c => c = '.') (strOf "x.pdf") = some 1 := by decide

example : splitOnCharStr '.' (strOf "a.b.") = [strOf "a", strOf "b", strOf ""] := by decide

example : chunkTextF 1 (strOf "hi") 100 0 none = mret [strOf "hi"] := by decide

example :
    chunkTextF 1 (strOf "aaaa aaaa\n\nbbbb bbbb") 10 4
      (some { respectSentences := true, respectParagraphs := true,
              minChunkSize := 1, maxChunkSize := 2000 }) =
    mret [strOf "aaaa aaaa", strOf "bbbb bbbb"] := by decide

example : getTextOverlapE (strOf "aaaa aaaa") 4 = Except.ok (strOf "aaaa") := by decide

example : chunkTextF 1 (strOf "你好你好") 5 0 none = some (Except.error boundaryPanic) := by
  decide

example : detectLanguage (strOf "你好世界") = strOf "zh" := by decide

example : detectLanguage (strOf "こんにちは") = strOf "ja" := by decide

example : detectLanguage (strOf "안녕하세요") = strOf "ko" := by decide

example : detectLanguage (strOf "Hello world") = strOf "es" := by decide

example : detectLanguage [] = strOf "de" := by decide

example :
    cleanText (strOf "Hello   world!\r\nThis is a test.") none =
    strOf "Hello world!\nThis is a test." := by decide

example :
    normalizeWhitespaceT (strOf "Hello    world\n\n\n\nNext paragraph") =
    strOf "Hello world\n\nNext paragraph" := by decide

example : cleanText (strOf "a\n \n \n \nb") none = strOf "a\n\n\n\nb" := by decide

example : cleanText (strOf "a\n\n\n\nb") none = strOf "a\n\nb" := by decide

example : utf8Decode [0x25, 0x50] = some (strOf "%P") := by decide

example : utf8Decode [0xe4, 0xbd, 0xa0] = some (strOf "你") := by decide

example : utf8Decode [0xff] = none := by decide

example :
    parseCsvRecords (some [strOf "h"]) [[strOf "a"], [strOf "b"]] defaultParseOptions =
    Except.ok (strOf "a\nb\n") := by decide

example : detectFileType (strOf "x.PDF") [] = Except.ok (strOf "pdf") := by decide

example : detectFileType (strOf "test") [] = Except.error DocError.emptyDocument := by decide

example : detectFileType (strOf "a.b.md") [1, 2, 3] = Except.ok (strOf "markdown") := by decide

example :
    parseDocument [] (strOf "test") none = Except.error DocError.emptyDocument := by decide

/-- Destructing a successful `mbind`. -/
theorem mbind_eq_ok {α β : Type} {x : MRes α} {k : α → MRes β} {b : β}
    (h : mbind x k = some (Except.ok b)) :
    ∃ a, x = some (Except.ok a) ∧ k a = some (Except.ok b) := by
  cases x with
  | none => simp [mbind] at h
  | some e =>
    cases e with
    | error m => simp [mbind] at h
    | ok a => exact ⟨a, rfl, h⟩

/-- C1 (counterexample): the short-circuit path of `chunk_text` returns
the whole text unfiltered, so on default options (whose
`min_chunk_size` is 100) a 2-byte input is emitted even though it is
shorter than `min_chunk_size`, contradicting the claim that every
emitted chunk has length at least `min_chunk_size` on every code path. -/
theorem c1_short_circuit_emits_below_min :
    chunkTextF 1 (strOf "hi") 100 0 none = some (Except.ok [strOf "hi"]) ∧
    byteLen (strOf "hi") < defaultChunkOptions.minChunkSize := by
  exact ⟨by decide, by decide⟩

/-- C1 (amended): on the paragraph-mode and sentence-mode paths (taken
when the text is longer than `chunk_size` and the corresponding
`respect_*` flag is set), the final post-filter guarantees that every
emitted chunk has byte length at least `min_chunk_size`.  The
short-circuit path and the raw character-window path are exempt. -/
theorem c1_min_filter_on_structured_paths (f : Nat) (text : Str) (cs ov : Nat)
    (opts : ChunkOptions) (r : List Str)
    (hp : opts.respectParagraphs = true ∨ opts.respectSentences = true)
    (hlen : cs < byteLen text)
    (h : chunkTextF f text cs ov (some opts) = some (Except.ok r)) :
    ∀ c ∈ r, opts.minChunkSize ≤ byteLen c := by
  unfold chunkTextF at h
  rw [if_neg (by simpa using Nat.not_le.mpr hlen)] at h
  by_cases hb : opts.respectParagraphs = true
  · rw [if_pos (by simpa using hb)] at h
    unfold chunkByParagraphsF at h
    obtain ⟨cks, _, h2⟩ := mbind_eq_ok h
    have hr : r = cks.filter (fun c => opts.minChunkSize ≤ byteLen c) := by
      simpa [mret] using h2.symm
    intro c hc
    rw [hr] at hc
    simpa using (List.mem_filter.mp hc).2
  · have hs : opts.respectSentences = true := hp.resolve_left hb
    rw [if_neg (by simpa using hb), if_pos (by simpa using hs)] at h
    unfold chunkBySentencesF at h
    obtain ⟨cks, _, h2⟩ := mbind_eq_ok h
    have hr : r = cks.filter (fun c => opts.minChunkSize ≤ byteLen c) := by
      simpa [mret] using h2.symm
    intro c hc
    rw [hr] at hc
    simpa using (List.mem_filter.mp hc).2

/-- C1 (witness): a concrete paragraph-mode run on which the amended
filter guarantee is instantiated. -/
theorem c1_min_filter_witness :
    10 < byteLen (strOf "aaaa aaaa\n\nbbbb bbbb") ∧
    (∀ c ∈ [strOf "aaaa aaaa", strOf "bbbb bbbb"],
      (ChunkOptions.mk true true 1 2000).minChunkSize ≤ byteLen c) := by
  refine ⟨by decide, ?_⟩
  exact c1_min_filter_on_structured_paths 1 (strOf "aaaa aaaa\n\nbbbb bbbb") 10 4
    (ChunkOptions.mk true true 1 2000) [strOf "aaaa aaaa", strOf "bbbb bbbb"]
    (Or.inl rfl) (by decide) (by decide)

/-- C4: on the input of the crate's own unit test, `detect_language`
returns "es", not "en": the stop words are counted as substrings, so
"hello" contains the Spanish word "el" while no English stop word
occurs.  The CJK scenario does return "zh", and zero-signal input
returns "de" (the last maximal score wins in `max_by_key`), not "en". -/
theorem c4_hello_world_is_spanish :
    detectLanguage (strOf "Hello world") = strOf "es" ∧
    ¬ detectLanguage (strOf "Hello world") = strOf "en" ∧
    detectLanguage (strOf "你好世界") = strOf "zh" ∧
    detectLanguage [] = strOf "de" := by
  exact ⟨by decide, by decide, by decide, by decide⟩

/-- C7: on zero-length content, `detect_file_type` returns the kind
resolved by the filename extension alone when there is one and fails
with `EmptyDocument` otherwise, and `parse_document` of an empty buffer
with the extensionless filename "test" fails with `EmptyDocument`. -/
theorem c7_empty_content_empty_document :
    (∀ filename : Str,
      detectFileType filename [] =
        match extResolvedKind filename with
        | some k => Except.ok k
        | none => Except.error DocError.emptyDocument) ∧
    parseDocument [] (strOf "test") none = Except.error DocError.emptyDocument := by
  constructor
  · intro filename
    unfold detectFileType extResolvedKind
    cases hp : pathExtension filename with
    | none => rfl
    | some e =>
      cases hm : extMatch (toLowerStr e) with
      | none => simp [hm, Option.bind]; rfl
      | some k => simp [hm, Option.bind]
  · decide

/-- C10: `chunk_text` with default options on the all-CJK input
"你好你好" and `chunk_size = 5` reaches the character-window fallback,
whose slice `text[0..5]` lands inside a 3-byte character: the Rust code
panics (models as the boundary panic) instead of returning. -/
theorem c10_chunk_text_panics_on_multibyte :
    chunkTextF 1 (strOf "你好你好") 5 0 none = some (Except.error boundaryPanic) := by
  decide

/-- Helper: `rfindIdx` finds nothing when no char satisfies the test. -/
theorem rfindIdx_eq_none (p : Char → Bool) (s : Str) (h : ∀ c ∈ s, p c = false) :
    rfindIdx p s = none := by
  induction s with
  | nil => rfl
  | cons c cs ih =>
    have hc := h c (List.mem_cons_self c cs)
    have ht := ih (fun d hd => h d (List.mem_cons_of_mem c hd))
    simp [rfindIdx, ht, hc]

/-- Helper: `rfindIdx` over an append prefers the right part. -/
theorem rfindIdx_append (p : Char → Bool) (s t : Str) :
    rfindIdx p (s ++ t) =
      match rfindIdx p t with
      | some j => some (s.length + j)
      | none => rfindIdx p s := by
  induction s with
  | nil => cases h : rfindIdx p t <;> simp [h, rfindIdx]
  | cons c cs ih =>
    cases h : rfindIdx p t with
    | some j =>
      have ih3 : rfindIdx p (cs ++ t) = some (cs.length + j) := by rw [h] at ih; exact ih
      simp only [List.cons_append, rfindIdx, List.append_eq, ih3, List.length_cons]
      congr 1
      omega
    | none =>
      have ih3 : rfindIdx p (cs ++ t) = rfindIdx p cs := by rw [h] at ih; exact ih
      simp only [List.cons_append, rfindIdx, List.append_eq, ih3]

/-- Helper: splitting on an absent separator yields one piece. -/
theorem splitOnCharStr_no_sep {sep : Char} : ∀ {s : Str}, sep ∉ s →
    splitOnCharStr sep s = [s] := by
  intro s
  induction s with
  | nil => intro _; rfl
  | cons c cs ih =>
    intro hs
    have hc : ¬ c = sep := fun he => hs (he ▸ List.mem_cons_self c cs)
    have ht := ih (fun hm => hs (List.mem_cons_of_mem c hm))
    show (let r := splitOnCharStr sep cs;
      if c = sep then [] :: r else (c :: r.headD []) :: r.tail) = [c :: cs]
    rw [ht]
    simp [hc]

example : pathExtension (strOf "dir/.pdf") = none := by decide

example : pathExtension (strOf "a.pdf/") = some (strOf "pdf") := by decide

example : pathExtension (strOf "foo/..") = none := by decide

example : pathExtension (strOf "a/b.tar.gz") = some (strOf "gz") := by decide

/-- Helper: the extension split of the file name `stem ++ "." ++ ext` is
`ext` when the stem is non-empty and the extension has no dot. -/
theorem extOfFileName_concat (stem eRaw : Str) (hstem : stem ≠ [])
    (hdot : ('.' ∈ eRaw) → False) :
    extOfFileName (stem ++ '.' :: eRaw) = some eRaw := by
  have hn : rfindIdx (fun c => c = '.') eRaw = none := by
    refine rfindIdx_eq_none _ _ (fun c hc => ?_)
    exact decide_eq_false (fun he => hdot (he ▸ hc))
  have hfind : rfindIdx (fun c => c = '.') (stem ++ '.' :: eRaw) = some stem.length := by
    rw [rfindIdx_append]
    simp [rfindIdx, hn]
  cases hs : stem with
  | nil => exact absurd hs hstem
  | cons a as =>
    subst hs
    rw [extOfFileName, hfind]
    simp only [List.length_cons]
    have hdrop : (a :: as ++ '.' :: eRaw).drop (as.length + 2) = eRaw := by
      have he : a :: as ++ '.' :: eRaw = (a :: as ++ ['.']) ++ eRaw := by simp
      have hl : (a :: as ++ ['.']).length = as.length + 2 := by
        simp [List.length_append]
      rw [he, ← hl, List.drop_left]
    rw [hdrop]

/-- Helper: a separator-free `stem ++ "." ++ ext` path is its own file
name (one non-empty component, longer than the `.` and `..` specials),
so its extension is `ext`. -/
theorem pathExtension_concat (stem eRaw : Str) (hstem : stem ≠ [])
    (hdot : ('.' ∈ eRaw) → False) (hsep : ('/' ∈ stem) → False)
    (hsepR : ('/' ∈ eRaw) → False) (hne : eRaw ≠ []) :
    pathExtension (stem ++ '.' :: eRaw) = some eRaw := by
  have hnosep : ('/' : Char) ∉ stem ++ '.' :: eRaw := by
    intro hm
    rcases List.mem_append.mp hm with h | h
    · exact hsep h
    · rcases List.mem_cons.mp h with h2 | h2
      · exact absurd h2 (by decide)
      · exact hsepR h2
  have h1 : 1 ≤ stem.length := List.length_pos.mpr hstem
  have h2 : 1 ≤ eRaw.length := List.length_pos.mpr hne
  have hlenEq : (stem ++ '.' :: eRaw).length = stem.length + (eRaw.length + 1) := by
    rw [List.length_append, List.length_cons]
  have hne2 : stem ++ '.' :: eRaw ≠ [] := by
    intro h
    have h3 := congrArg List.length h
    rw [hlenEq] at h3
    simp only [List.length_nil] at h3
    omega
  have hnd : ¬ stem ++ '.' :: eRaw = strOf "." := by
    intro h
    have h3 := congrArg List.length h
    rw [hlenEq] at h3
    have h4 : (strOf ".").length = 1 := rfl
    rw [h4] at h3
    omega
  have hndd : ¬ stem ++ '.' :: eRaw = strOf ".." := by
    intro h
    have h3 := congrArg List.length h
    rw [hlenEq] at h3
    have h4 : (strOf "..").length = 2 := rfl
    rw [h4] at h3
    omega
  have hfn : pathFileName (stem ++ '.' :: eRaw) = some (stem ++ '.' :: eRaw) := by
    unfold pathFileName
    rw [splitOnCharStr_no_sep hnosep]
    simp only [List.filter_cons, List.filter_nil]
    rw [if_pos (by simp [hne2, hnd])]
    simp only [List.getLast?_singleton]
    rw [if_neg hndd]
  unfold pathExtension
  rw [hfn, Option.some_bind]
  exact extOfFileName_concat stem eRaw hstem hdot

/-- Helper: every table entry is matched by `extMatch`, is non-empty and
contains neither a dot nor a separator. -/
theorem extKindTable_sound :
    ∀ p ∈ extKindTable, extMatch p.1 = some p.2 ∧ (('.' ∈ p.1) → False) ∧
      (('/' ∈ p.1) → False) ∧ p.1 ≠ [] := by
  decide

/-- C6: for every entry of the supported extension table and arbitrary
content bytes, `detect_file_type` on a filename of the shape
`stem.<ext>` (non-empty separator-free stem, any case variant of the
extension) returns the kind mapped to that extension without consulting
the content. -/
theorem c6_extension_wins (e k : Str) (hmem : (e, k) ∈ extKindTable)
    (stem eRaw : Str) (content : Bytes) (hstem : stem ≠ [])
    (hsep : ('/' ∈ stem) → False) (hlow : toLowerStr eRaw = e) :
    detectFileType (stem ++ '.' :: eRaw) content = Except.ok k := by
  obtain ⟨hmatch, hnodot, hnosl, henil⟩ := extKindTable_sound (e, k) hmem
  have hdotR : ('.' ∈ eRaw) → False := by
    intro hd
    refine hnodot ?_
    have : Char.toLower '.' = '.' := by decide
    have hm : '.' ∈ toLowerStr eRaw := by
      simpa [toLowerStr, this] using List.mem_map_of_mem Char.toLower hd
    simpa [hlow] using hm
  have hsepR : ('/' ∈ eRaw) → False := by
    intro hd
    refine hnosl ?_
    have : Char.toLower '/' = '/' := by decide
    have hm : '/' ∈ toLowerStr eRaw := by
      simpa [toLowerStr, this] using List.mem_map_of_mem Char.toLower hd
    simpa [hlow] using hm
  have hneR : eRaw ≠ [] := by
    intro h
    rw [h] at hlow
    exact henil hlow.symm
  have hext := pathExtension_concat stem eRaw hstem hdotR hsep hsepR hneR
  have hm2 : extMatch e = some k := hmatch
  unfold detectFileType
  rw [hext]
  simp only [hlow, hm2]

/-- C6 (witness): the table entry for "pdf" on the uppercase filename
"x.PDF" with empty content. -/
theorem c6_extension_wins_witness :
    (strOf "pdf", strOf "pdf") ∈ extKindTable ∧ strOf "x" ≠ [] ∧
    (('/' ∈ strOf "x") → False) ∧ toLowerStr (strOf "PDF") = strOf "pdf" ∧
    detectFileType (strOf "x" ++ '.' :: strOf "PDF") [] = Except.ok (strOf "pdf") := by
  refine ⟨by decide, by decide, by decide, by decide, ?_⟩
  exact c6_extension_wins (strOf "pdf") (strOf "pdf") (by decide) (strOf "x") (strOf "PDF")
    [] (by decide) (by decide) (by decide)

/-- C9: the batch entry point is order-preserving (one result per input,
in order), the i-th result is the result of processing the i-th item
alone, and replacing any other item never changes the i-th result
(failure isolation). -/
theorem c9_process_batch_pointwise (docs : List (Bytes × Str)) (opts : Option ParseOptions) :
    (processBatchDocuments docs opts).length = docs.length ∧
    (∀ (i : Nat) (d : Bytes × Str), docs[i]? = some d →
      (processBatchDocuments docs opts)[i]? = (processBatchDocuments [d] opts)[0]?) ∧
    (∀ (i : Nat) (x : Bytes × Str) (j : Nat), j ≠ i →
      (processBatchDocuments (docs.set i x) opts)[j]? = (processBatchDocuments docs opts)[j]?) := by
  refine ⟨by simp [processBatchDocuments], ?_, ?_⟩
  · intro i d h
    simp [processBatchDocuments, List.getElem?_map, h]
  · intro i x j hne
    simp only [processBatchDocuments, List.getElem?_map]
    rw [List.getElem?_set_ne (fun he => hne he.symm)]

/-- C9 (witness): a two-item batch in which replacing item 0 leaves item
1's result unchanged and item 0's result equals its solo run. -/
theorem c9_process_batch_witness :
    (([(([] : Bytes), strOf "a.txt"), (([] : Bytes), strOf "b.csv")] : List (Bytes × Str)))[0]? =
      some (([] : Bytes), strOf "a.txt") ∧
    (1 : Nat) ≠ 0 ∧
    (processBatchDocuments [(([] : Bytes), strOf "a.txt"), (([] : Bytes), strOf "b.csv")] none)[0]? =
      (processBatchDocuments [(([] : Bytes), strOf "a.txt")] none)[0]? ∧
    (processBatchDocuments
        (([(([] : Bytes), strOf "a.txt"), (([] : Bytes), strOf "b.csv")] :
          List (Bytes × Str)).set 0 (([1] : Bytes), strOf "z")) none)[1]? =
      (processBatchDocuments [(([] : Bytes), strOf "a.txt"), (([] : Bytes), strOf "b.csv")] none)[1]? := by
  refine ⟨rfl, by decide, ?_, ?_⟩
  · exact (c9_process_batch_pointwise
      [(([] : Bytes), strOf "a.txt"), (([] : Bytes), strOf "b.csv")] none).2.1
      0 (([] : Bytes), strOf "a.txt") rfl
  · exact (c9_process_batch_pointwise
      [(([] : Bytes), strOf "a.txt"), (([] : Bytes), strOf "b.csv")] none).2.2
      0 (([1] : Bytes), strOf "z") 1 (by decide)

/-- Helper: UTF-8 widths are positive. -/
theorem utf8Width_pos (c : Char) : 0 < utf8Width c := by
  unfold utf8Width
  split
  · omega
  · split
    · omega
    · split <;> omega

/-- Helper: an ASCII char occupies one byte. -/
theorem utf8Width_ascii {c : Char} (h : c.toNat < 0x80) : utf8Width c = 1 := by
  simp [utf8Width, h]

/-- Helper: membership form of `allAscii`. -/
theorem allAscii_iff {s : Str} : allAscii s = true ↔ ∀ c ∈ s, c.toNat < 0x80 := by
  simp [allAscii, List.all_eq_true]

/-- Helper: `allAscii` restricts to any subset. -/
theorem allAscii_subset {s t : Str} (h : allAscii s = true) (hsub : ∀ c ∈ t, c ∈ s) :
    allAscii t = true := by
  rw [allAscii_iff] at h ⊢
  exact fun c hc => h c (hsub c hc)

/-- Helper: the byte length of a cons. -/
theorem byteLen_cons (c : Char) (cs : Str) : byteLen (c :: cs) = utf8Width c + byteLen cs := by
  simp [byteLen]

/-- Helper: on ASCII text the byte length is the char count. -/
theorem byteLen_ascii {s : Str} (h : allAscii s = true) : byteLen s = s.length := by
  induction s with
  | nil => rfl
  | cons c cs ih =>
    rw [allAscii_iff] at h
    have hc : c.toNat < 0x80 := h c (List.mem_cons_self c cs)
    have ht : allAscii cs = true :=
      allAscii_iff.mpr (fun d hd => h d (List.mem_cons_of_mem c hd))
    rw [byteLen_cons, utf8Width_ascii hc, ih ht, List.length_cons]
    omega

/-- Helper: on ASCII text, `byteSplit` splits at the char index. -/
theorem byteSplit_ascii :
    ∀ (s : Str) (n : Nat), allAscii s = true → n ≤ s.length →
      byteSplit s n = some (s.take n, s.drop n) := by
  intro s
  induction s with
  | nil =>
    intro n _ hn
    cases n with
    | zero => rfl
    | succ m => simp at hn
  | cons c cs ih =>
    intro n hA hn
    cases n with
    | zero => rfl
    | succ m =>
      rw [allAscii_iff] at hA
      have hc : utf8Width c = 1 :=
        utf8Width_ascii (hA c (List.mem_cons_self c cs))
      have ht : allAscii cs = true :=
        allAscii_iff.mpr (fun d hd => hA d (List.mem_cons_of_mem c hd))
      have hmn : m ≤ cs.length := by simpa using hn
      show (if utf8Width c ≤ m + 1 then
          (byteSplit cs (m + 1 - utf8Width c)).map (fun p => (c :: p.1, p.2))
        else none) = _
      rw [if_pos (by omega), hc]
      simp only [Nat.add_sub_cancel]
      rw [ih m ht hmn]
      simp [List.take_succ_cons, List.drop_succ_cons]

/-- Helper: on ASCII text, `byteSlice` is take-after-drop. -/
theorem byteSlice_ascii {s : Str} {a b : Nat} (hA : allAscii s = true) (hab : a ≤ b)
    (hb : b ≤ s.length) :
    byteSlice s a b = some ((s.drop a).take (b - a)) := by
  have ha : a ≤ s.length := le_trans hab hb
  have hdropA : allAscii (s.drop a) = true :=
    allAscii_subset hA (fun c hc => List.mem_of_mem_drop hc)
  unfold byteSlice
  rw [if_pos hab, byteSplit_ascii s a hA ha]
  simp only [Option.some_bind]
  rw [byteSplit_ascii (s.drop a) (b - a) hdropA (by rw [List.length_drop]; omega)]
  rfl

/-- Helper: on ASCII text, `byteDropF` is `List.drop`. -/
theorem byteDropF_ascii {s : Str} {a : Nat} (hA : allAscii s = true) (ha : a ≤ s.length) :
    byteDropF s a = some (s.drop a) := by
  unfold byteDropF
  rw [byteSplit_ascii s a hA ha]
  rfl

/-- Helper: a found first space is inside the string. -/
theorem findSpaceByte_lt {s : Str} {p : Nat} (h : findSpaceByte s = some p) : p < byteLen s := by
  induction s generalizing p with
  | nil => simp [findSpaceByte] at h
  | cons c cs ih =>
    by_cases hc : c = ' '
    · simp [findSpaceByte, hc] at h
      subst h
      have := utf8Width_pos c
      rw [byteLen_cons]
      omega
    · simp [findSpaceByte, hc] at h
      obtain ⟨q, hq, hpq⟩ := h
      have := ih hq
      rw [byteLen_cons]
      omega

/-- Helper: a found last space is inside the string. -/
theorem rfindSpaceByte_lt {s : Str} {p : Nat} (h : rfindSpaceByte s = some p) :
    p < byteLen s := by
  induction s generalizing p with
  | nil => simp [rfindSpaceByte] at h
  | cons c cs ih =>
    rw [rfindSpaceByte] at h
    cases hq : rfindSpaceByte cs with
    | some q =>
      rw [hq] at h
      have hqq := ih hq
      simp at h
      rw [byteLen_cons]
      omega
    | none =>
      rw [hq] at h
      by_cases hc : c = ' '
      · simp [hc] at h
        have := utf8Width_pos c
        rw [byteLen_cons]
        omega
      · simp [hc] at h

/-- Helper: a last space at byte offset zero means the head is a space. -/
theorem rfindSpaceByte_zero_head {s : Str} (h : rfindSpaceByte s = some 0) :
    s.head? = some ' ' := by
  cases s with
  | nil => simp [rfindSpaceByte] at h
  | cons c cs =>
    rw [rfindSpaceByte] at h
    cases hq : rfindSpaceByte cs with
    | some q =>
      rw [hq] at h
      have := utf8Width_pos c
      simp at h
      omega
    | none =>
      rw [hq] at h
      by_cases hc : c = ' '
      · simp [hc]
      · simp [hc] at h

/-- Helper: on ASCII text, `get_text_overlap` succeeds and returns (the
trim of) a word-aligned suffix of its input of at most `overlap` bytes. -/
theorem getTextOverlapE_ascii_suffix (t : Str) (ov : Nat) (hA : allAscii t = true) :
    ∃ ot s2, getTextOverlapE t ov = Except.ok ot ∧ s2 <:+ t ∧ byteLen s2 ≤ ov ∧
      (ot = s2 ∨ ot = trimStr s2) := by
  by_cases h1 : byteLen t ≤ ov
  · refine ⟨t, t, ?_, List.suffix_refl t, h1, Or.inl rfl⟩
    simp [getTextOverlapE, h1]
  · have hlen : byteLen t = t.length := byteLen_ascii hA
    have hov : ov < byteLen t := by omega
    have hsp : byteLen t - ov ≤ t.length := by omega
    have hd : byteDropF t (byteLen t - ov) = some (t.drop (byteLen t - ov)) :=
      byteDropF_ascii hA hsp
    have hAdrop : allAscii (t.drop (byteLen t - ov)) = true :=
      allAscii_subset hA (fun c hc => List.mem_of_mem_drop hc)
    have hlenDrop : byteLen (t.drop (byteLen t - ov)) = ov := by
      rw [byteLen_ascii hAdrop, List.length_drop]
      omega
    cases hf : findSpaceByte (t.drop (byteLen t - ov)) with
    | none =>
      refine ⟨t.drop (byteLen t - ov), t.drop (byteLen t - ov), ?_,
        List.drop_suffix _ _, le_of_eq hlenDrop, Or.inl rfl⟩
      unfold getTextOverlapE
      rw [if_neg h1]
      simp only [hd, hf]
    | some p =>
      have hp : p < ov := by
        have := findSpaceByte_lt hf
        omega
      have hp2 : p ≤ (t.drop (byteLen t - ov)).length := by
        rw [← byteLen_ascii hAdrop]
        omega
      have hd2 : byteDropF (t.drop (byteLen t - ov)) p =
          some ((t.drop (byteLen t - ov)).drop p) := byteDropF_ascii hAdrop hp2
      refine ⟨trimStr ((t.drop (byteLen t - ov)).drop p),
        (t.drop (byteLen t - ov)).drop p, ?_, ?_, ?_, Or.inr rfl⟩
      · unfold getTextOverlapE
        rw [if_neg h1]
        simp only [hd, hf, hd2]
      · exact (List.drop_suffix _ _).trans (List.drop_suffix _ _)
      · have hAd2 : allAscii ((t.drop (byteLen t - ov)).drop p) = true :=
          allAscii_subset hAdrop (fun c hc => List.mem_of_mem_drop hc)
        rw [byteLen_ascii hAd2, List.length_drop, byteLen_ascii hAdrop] at *
        omega

/-- C2 (counterexample): with overlap 4 and two emitted chunks, the
word-aligned overlap suffix of chunk 1 (which `get_text_overlap` itself
computes as "aaaa") is not a prefix of chunk 2, and occurs nowhere in
chunk 2 at all: at the first chunk boundary the code tests
`chunks.len() > 1` after pushing the first chunk, so no overlap is
prepended between the first and second chunk. -/
theorem c2_first_pair_shares_no_overlap :
    chunkTextF 1 (strOf "aaaa aaaa\n\nbbbb bbbb") 10 4
      (some (ChunkOptions.mk true true 1 2000)) =
      some (Except.ok [strOf "aaaa aaaa", strOf "bbbb bbbb"]) ∧
    getTextOverlapE (strOf "aaaa aaaa") 4 = Except.ok (strOf "aaaa") ∧
    (strOf "aaaa").isPrefixOf (strOf "bbbb bbbb") = false ∧
    containsSub (strOf "aaaa") (strOf "bbbb bbbb") = false := by
  exact ⟨by decide, by decide, by decide, by decide⟩

/-- C2 (amended): in the paragraph packer, when a paragraph triggers a
chunk boundary (it fits `chunk_size` on its own but overflows the
accumulator) with `overlap > 0`, overlap seeding depends on how many
chunks have been emitted: at the first boundary (no previously emitted
chunk) the next accumulator is the new paragraph alone — the first two
chunks share no overlap — and at every later boundary the next
accumulator is `get_text_overlap(previous accumulator, overlap)` (the
trim of a word-aligned suffix of at most `overlap` bytes) joined to the
new paragraph by a blank line. -/
theorem c2_overlap_only_after_first_chunk (fuel cs ov : Nat) (opts : ChunkOptions)
    (rest chunks : List Str) (current p : Str)
    (hov : 0 < ov) (hps : byteLen p ≤ cs) (hbig : cs < byteLen current + byteLen p + 2)
    (hne : current ≠ []) (hA : allAscii current = true) :
    (chunks = [] →
      paraLoop fuel cs ov opts (p :: rest) chunks current =
        paraLoop fuel cs ov opts rest (chunks ++ [trimStr current]) p) ∧
    (chunks ≠ [] →
      ∃ ot s2, getTextOverlapE current ov = Except.ok ot ∧ s2 <:+ current ∧
        byteLen s2 ≤ ov ∧ (ot = s2 ∨ ot = trimStr s2) ∧
        paraLoop fuel cs ov opts (p :: rest) chunks current =
          paraLoop fuel cs ov opts rest (chunks ++ [trimStr current])
            (ot ++ strOf "\n\n" ++ p)) := by
  constructor
  · intro hnil
    subst hnil
    show (if cs < byteLen p then _ else _) = _
    rw [if_neg (by omega)]
    rw [if_pos ⟨hbig, hne⟩]
    rw [if_neg (by simp)]
  · intro hchunks
    obtain ⟨ot, s2, hov2, hsuf, hlen2, hform⟩ := getTextOverlapE_ascii_suffix current ov hA
    refine ⟨ot, s2, hov2, hsuf, hlen2, hform, ?_⟩
    show (if cs < byteLen p then _ else _) = _
    rw [if_neg (by omega)]
    rw [if_pos ⟨hbig, hne⟩]
    have hlen1 : 1 < (chunks ++ [trimStr current]).length := by
      cases chunks with
      | nil => exact absurd rfl hchunks
      | cons a as => simp
    rw [if_pos ⟨hov, hlen1⟩, hov2]

/-- C2 (witness): a concrete later-boundary step in which the amended
overlap seeding is instantiated. -/
theorem c2_overlap_witness :
    0 < 4 ∧ byteLen (strOf "bbbb") ≤ 10 ∧
    10 < byteLen (strOf "aaaa aaaa") + byteLen (strOf "bbbb") + 2 ∧
    strOf "aaaa aaaa" ≠ [] ∧ allAscii (strOf "aaaa aaaa") = true ∧
    ([strOf "xxxx"] : List Str) ≠ [] ∧
    (∃ ot s2, getTextOverlapE (strOf "aaaa aaaa") 4 = Except.ok ot ∧
      s2 <:+ strOf "aaaa aaaa" ∧ byteLen s2 ≤ 4 ∧ (ot = s2 ∨ ot = trimStr s2) ∧
      paraLoop 1 10 4 defaultChunkOptions [strOf "bbbb"] [strOf "xxxx"] (strOf "aaaa aaaa") =
        paraLoop 1 10 4 defaultChunkOptions [] ([strOf "xxxx"] ++ [trimStr (strOf "aaaa aaaa")])
          (ot ++ strOf "\n\n" ++ strOf "bbbb")) := by
  refine ⟨by decide, by decide, by decide, by decide, by decide, by decide, ?_⟩
  exact (c2_overlap_only_after_first_chunk 1 10 4 defaultChunkOptions [] [strOf "xxxx"]
    (strOf "aaaa aaaa") (strOf "bbbb") (by decide) (by decide) (by decide) (by decide)
    (by decide)).2 (by decide)

/-- Helper: rewriting under the head of an `mbind` chain. -/
theorem mbind_none_of {α β : Type} {y : MRes β} (x : MRes α) (k : α → MRes β)
    (hx : x = none) (hy : y = mbind x k) : y = none := by
  rw [hy, hx]
  rfl

/-- Helper: from the repeating state `start = 1` of the character window
on "ab cd" with `chunk_size = 3`, `overlap = 1`, the loop never finishes
for any fuel: each iteration re-emits "b" and returns to `start = 1`. -/
theorem charsLoop_ab_cd_stuck :
    ∀ (f : Nat) (chunks : List Str),
      charsLoopF (strOf "ab cd") 3 1 f 1 chunks = none := by
  intro f
  induction f with
  | zero => intro chunks; rfl
  | succ f ih =>
    intro chunks
    have hstep : charsLoopF (strOf "ab cd") 3 1 (f + 1) 1 chunks =
        charsLoopF (strOf "ab cd") 3 1 f 1 (chunks ++ [strOf "b"]) := rfl
    rw [hstep]
    exact ih (chunks ++ [strOf "b"])

/-- Helper: the whole `chunk_text` call on "ab cd" with `chunk_size = 3`
and `overlap = 1` runs out of any fuel. -/
theorem chunkText_ab_cd_none (f : Nat) :
    chunkTextF f (strOf "ab cd") 3 1 none = none := by
  cases f with
  | zero => rfl
  | succ f =>
    have h1 : chunkByCharsF (f + 1) (strOf "ab cd") 3 1 = none := by
      have h0 : chunkByCharsF (f + 1) (strOf "ab cd") 3 1 =
          charsLoopF (strOf "ab cd") 3 1 f 1 [strOf "ab"] := rfl
      rw [h0]
      exact charsLoop_ab_cd_stuck f _
    have h2 : sentLoop (f + 1) 3 1 [strOf "ab cd"] [] [] = none :=
      mbind_none_of _ _ h1 rfl
    have h3 : chunkBySentencesF (f + 1) (strOf "ab cd") 3 1 defaultChunkOptions = none :=
      mbind_none_of _ _ h2 rfl
    have h4 : paraLoop (f + 1) 3 1 defaultChunkOptions [strOf "ab cd"] [] [] = none :=
      mbind_none_of _ _ h3 rfl
    have h5 : chunkByParagraphsF (f + 1) (strOf "ab cd") 3 1 defaultChunkOptions = none :=
      mbind_none_of _ _ h4 rfl
    exact h5

/-- C3 (counterexample): the guarantee fails inside the claimed-safe
regime `0 < overlap < chunk_size`: on text "ab cd" with `chunk_size = 3`
and `overlap = 1` the character window snaps to a word boundary, the
overlap subtraction returns the window start to its previous position,
and the loop never terminates, so `chunk_text` diverges. -/
theorem c3_overlap_one_diverges :
    1 < 3 ∧ 0 < (3 : Nat) ∧ ¬ chunkTextTerminates (strOf "ab cd") 3 1 none := by
  refine ⟨by decide, by decide, ?_⟩
  rintro ⟨f, r, h⟩
  rw [chunkText_ab_cd_none f] at h
  exact Option.noConfusion h

/-- Helper: on ASCII text the whitespace-skipping loop returns normally
with a position no smaller than its start. -/
theorem skipWsGo_ascii_ok (text : Str) (hA : allAscii text = true) :
    ∀ (k start : Nat), ∃ j, skipWsGo text k start = Except.ok j ∧ start ≤ j := by
  intro k
  induction k with
  | zero => intro start; exact ⟨start, rfl, le_refl start⟩
  | succ k ih =>
    intro start
    by_cases hs : start < byteLen text
    · have hsl : start < text.length := by rw [← byteLen_ascii hA]; exact hs
      have hget : text[start]? = some text[start] := List.getElem?_eq_getElem hsl
      by_cases hw : rustIsWhitespace text[start] = true
      · obtain ⟨j, hj, hle⟩ := ih (start + 1)
        refine ⟨j, ?_, by omega⟩
        simp only [skipWsGo]
        rw [if_pos hs, hget]
        simp only [hw, if_true]
        exact hj
      · refine ⟨start, ?_, le_refl start⟩
        simp only [skipWsGo]
        rw [if_pos hs, hget]
        simp [hw]
    · refine ⟨start, ?_, le_refl start⟩
      simp only [skipWsGo]
      rw [if_neg hs]

/-- Helper: on ASCII text `skip_ws` returns normally, does not move
backwards, and strictly advances when it starts on a whitespace char. -/
theorem skipWs_ascii_spec (text : Str) (hA : allAscii text = true) (start : Nat) :
    ∃ j, skipWs text start = Except.ok j ∧ start ≤ j ∧
      (∀ c, start < byteLen text → text[start]? = some c →
        rustIsWhitespace c = true → start + 1 ≤ j) := by
  obtain ⟨j, hj, hle⟩ := skipWsGo_ascii_ok text hA (byteLen text - start) start
  refine ⟨j, hj, hle, ?_⟩
  intro c hs hget hw
  have hk : byteLen text - start = (byteLen text - start - 1) + 1 := by omega
  have hunf : skipWsGo text (byteLen text - start) start =
      skipWsGo text (byteLen text - start - 1) (start + 1) := by
    rw [hk]
    simp only [skipWsGo]
    rw [if_pos hs, hget]
    simp [hw]
  obtain ⟨j2, hj2, hle2⟩ := skipWsGo_ascii_ok text hA (byteLen text - start - 1) (start + 1)
  have hj3 : skipWsGo text (byteLen text - start) start = Except.ok j := hj
  rw [hunf, hj2] at hj3
  injection hj3 with hjj
  omega

/-- Helper: with zero overlap on ASCII text, every iteration of the
character-window loop strictly advances its start position, so the loop
terminates once the fuel exceeds the remaining byte count. -/
theorem charsLoopF_ascii_zero_ov_term (text : Str) (cs : Nat) (hcs : 0 < cs)
    (hA : allAscii text = true) :
    ∀ (f start : Nat) (chunks : List Str), byteLen text - start < f →
      ∃ r, charsLoopF text cs 0 f start chunks = some (Except.ok r) := by
  intro f
  induction f with
  | zero =>
    intro start chunks h
    omega
  | succ f ih =>
    intro start chunks hf
    by_cases hs : start < byteLen text
    case neg =>
      refine ⟨chunks, ?_⟩
      simp only [charsLoopF]
      rw [if_neg hs]
      rfl
    case pos =>
      have hlen : byteLen text = text.length := byteLen_ascii hA
      have hMleLen : min (start + cs) (byteLen text) ≤ text.length := by
        rw [← hlen]
        exact min_le_right _ _
      have hse : start < min (start + cs) (byteLen text) := by omega
      by_cases hel : min (start + cs) (byteLen text) < byteLen text
      case neg =>
        have heL : min (start + cs) (byteLen text) = byteLen text := by omega
        have hsliceA : byteSlice text start (byteLen text) =
            some ((text.drop start).take (byteLen text - start)) :=
          byteSlice_ascii hA (by omega) (by omega)
        have hskipA : skipWs text (byteLen text) = Except.ok (byteLen text) := by
          unfold skipWs
          rw [Nat.sub_self]
          rfl
        simp only [charsLoopF]
        rw [if_pos hs]
        simp [heL, hsliceA, hskipA]
        exact ih (byteLen text) _ (by omega)
      case pos =>
        have hsliceB : byteSlice text start (min (start + cs) (byteLen text)) =
            some ((text.drop start).take (min (start + cs) (byteLen text) - start)) :=
          byteSlice_ascii hA (by omega) hMleLen
        have hAW : allAscii ((text.drop start).take (min (start + cs) (byteLen text) - start))
            = true :=
          allAscii_subset hA
            (fun c hc => List.mem_of_mem_drop (List.mem_of_mem_take hc))
        have hWlen : byteLen ((text.drop start).take (min (start + cs) (byteLen text) - start))
            = min (start + cs) (byteLen text) - start := by
          rw [byteLen_ascii hAW, List.length_take, List.length_drop]
          omega
        have hov0 : ¬ ((0 : Nat) < 0 ∧ 0 < min (start + cs) (byteLen text)) := by simp
        cases hrf :
            rfindSpaceByte ((text.drop start).take (min (start + cs) (byteLen text) - start)) with
        | none =>
          obtain ⟨j, hj, hle, _⟩ := skipWs_ascii_spec text hA (min (start + cs) (byteLen text))
          simp only [charsLoopF]
          rw [if_pos hs]
          simp only [if_pos hel, hsliceB, hrf, mbind_ret, if_neg hov0, hj]
          exact ih j _ (by omega)
        | some p =>
          have hplt : p < min (start + cs) (byteLen text) - start := by
            have := rfindSpaceByte_lt hrf
            omega
          by_cases hp0 : p = 0
          · subst hp0
            have hov0s : ¬ ((0 : Nat) < 0 ∧ 0 < start + 0) := by simp
            have hhead : text[start]? = some ' ' := by
              have hh := rfindSpaceByte_zero_head hrf
              rw [List.head?_take, if_neg (by omega), List.head?_drop] at hh
              exact hh
            have hslice0 : byteSlice text start (start + 0) = some [] := by
              rw [Nat.add_zero, byteSlice_ascii hA (le_refl start) (by omega)]
              simp
            obtain ⟨j, hj, hle, hadv⟩ := skipWs_ascii_spec text hA start
            have hj0 : skipWs text (start + 0) = Except.ok j := by
              rw [Nat.add_zero]
              exact hj
            have hj1 : start + 1 ≤ j := hadv ' ' hs hhead (by decide)
            simp only [charsLoopF]
            rw [if_pos hs]
            simp only [if_pos hel, hsliceB, hrf, mbind_ret, if_neg hov0s, hslice0, hj0]
            exact ih j _ (by omega)
          · have hov0p : ¬ ((0 : Nat) < 0 ∧ 0 < start + p) := by simp
            have hsliceP : byteSlice text start (start + p) =
                some ((text.drop start).take p) := by
              rw [byteSlice_ascii hA (by omega) (by omega)]
              simp
            obtain ⟨j, hj, hle, _⟩ := skipWs_ascii_spec text hA (start + p)
            simp only [charsLoopF]
            rw [if_pos hs]
            simp only [if_pos hel, hsliceB, hrf, mbind_ret, if_neg hov0p, hsliceP, hj]
            exact ih j _ (by omega)

/-- C3 (amended): the unconditional-advance guarantee holds only for
`overlap = 0` on ASCII text: there `chunk_by_characters` terminates for
any positive `chunk_size`.  With `0 < overlap < chunk_size` the window
start can return to its previous position after word-boundary snapping
(counterexample: text "ab cd", `chunk_size = 3`, `overlap = 1`), so the
claimed exemption of only `overlap >= chunk_size` is wrong. -/
theorem c3_char_window_terminates_zero_overlap (text : Str) (cs : Nat) (hcs : 0 < cs)
    (hA : allAscii text = true) :
    ∃ f r, chunkByCharsF f text cs 0 = some (Except.ok r) := by
  by_cases h : byteLen text ≤ cs
  · refine ⟨1, [text], ?_⟩
    simp [chunkByCharsF, h, mret]
  · obtain ⟨r, hr⟩ :=
      charsLoopF_ascii_zero_ov_term text cs hcs hA (byteLen text + 1) 0 [] (by omega)
    refine ⟨byteLen text + 1, r, ?_⟩
    simpa [chunkByCharsF, h] using hr

/-- C3 (witness): the terminating configuration on the counterexample
text itself once the overlap is zero. -/
theorem c3_termination_witness :
    0 < 3 ∧ allAscii (strOf "ab cd") = true ∧
    (∃ f r, chunkByCharsF f (strOf "ab cd") 3 0 = some (Except.ok r)) := by
  refine ⟨by decide, by decide, ?_⟩
  exact c3_char_window_terminates_zero_overlap (strOf "ab cd") 3 (by decide) (by decide)

/-- Helper: the CSV record loop only appends to the accumulated text. -/
theorem csvLoop_extends (opts : ParseOptions) :
    ∀ (records : List (List Str)) (n : Nat) (text : Str),
      ∃ suf, csvLoop opts records n text = text ++ suf := by
  intro records
  induction records with
  | nil => intro n text; exact ⟨[], by simp [csvLoop]⟩
  | cons r rest ih =>
    intro n text
    by_cases hgo : 10000 < n + 1
    · refine ⟨csvRowText opts r ++ strOf "\n" ++ csvMarker ++ strOf "\n", ?_⟩
      simp only [csvLoop]
      rw [if_pos hgo]
      simp [List.append_assoc]
    · obtain ⟨suf, hsuf⟩ := ih (n + 1) (text ++ csvRowText opts r ++ strOf "\n")
      refine ⟨csvRowText opts r ++ strOf "\n" ++ suf, ?_⟩
      simp only [csvLoop]
      rw [if_neg hgo]
      rw [hsuf]
      simp [List.append_assoc]

/-- Helper: number of newlines emitted by the CSV record loop: one per
consumed record (at most 10001 of them) plus one for the marker line
appended exactly when more than 10000 records are present. -/
theorem csvLoop_count (opts : ParseOptions) :
    ∀ (records : List (List Str)) (n : Nat) (text : Str), n ≤ 10000 →
      (∀ r ∈ records, (csvRowText opts r).count '\n' = 0) →
      (csvLoop opts records n text).count '\n' =
        text.count '\n' + min records.length (10001 - n) +
          (if 10000 - n < records.length then 1 else 0) := by
  intro records
  induction records with
  | nil =>
    intro n text hn _
    simp [csvLoop]
  | cons r rest ih =>
    intro n text hn hr
    have hrzero : (csvRowText opts r).count '\n' = 0 := hr r (List.mem_cons_self r rest)
    have hmarker : csvMarker.count '\n' = 0 := by decide
    have hnl : (strOf "\n").count '\n' = 1 := by decide
    by_cases hgo : 10000 < n + 1
    · have hn10 : n = 10000 := by omega
      simp only [csvLoop]
      rw [if_pos hgo]
      simp only [List.count_append, hrzero, hmarker, hnl]
      subst hn10
      simp
    · simp only [csvLoop]
      rw [if_neg hgo]
      rw [ih (n + 1) (text ++ csvRowText opts r ++ strOf "\n") (by omega)
        (fun q hq => hr q (List.mem_cons_of_mem r hq))]
      simp only [List.count_append, hrzero, hnl, List.length_cons]
      split_ifs <;> omega

/-- Helper: once more than the remaining row budget is present, the CSV
record loop ends with the truncation marker line. -/
theorem csvLoop_marker (opts : ParseOptions) :
    ∀ (records : List (List Str)) (n : Nat) (text : Str),
      10000 - n < records.length → n ≤ 10000 →
      ∃ pre, csvLoop opts records n text = pre ++ csvMarker ++ strOf "\n" := by
  intro records
  induction records with
  | nil =>
    intro n text hlt _
    simp at hlt
  | cons r rest ih =>
    intro n text hlt hn
    by_cases hgo : 10000 < n + 1
    · refine ⟨text ++ csvRowText opts r ++ strOf "\n", ?_⟩
      simp only [csvLoop]
      rw [if_pos hgo]
    · obtain ⟨pre, hpre⟩ := ih (n + 1) (text ++ csvRowText opts r ++ strOf "\n")
        (by simp at hlt ⊢; omega) (by omega)
      refine ⟨pre, ?_⟩
      simp only [csvLoop]
      rw [if_neg hgo]
      exact hpre

/-- Helper: a string containing a non-whitespace char does not trim to
the empty string. -/
theorem trimStr_ne_nil_of_mem {s : Str} {c : Char} (hc : c ∈ s)
    (hw : rustIsWhitespace c = false) : trimStr s ≠ [] := by
  intro h
  unfold trimStr at h
  rw [List.reverse_eq_nil_iff, List.dropWhile_eq_nil_iff] at h
  have hcdrop : c ∈ s.dropWhile rustIsWhitespace := by
    have hsplit := List.takeWhile_append_dropWhile rustIsWhitespace s
    rcases List.mem_append.mp (by rw [hsplit]; exact hc) with htw | hdw
    · have := List.mem_takeWhile_imp htw
      rw [hw] at this
      exact absurd this (by simp)
    · exact hdw
  have := h c (List.mem_reverse.mpr hcdrop)
  rw [hw] at this
  exact absurd this (by simp)

/-- Helper: general form of the CSV truncation behavior: with
`preserve_formatting` off, more than 10000 newline-free records, and a
non-whitespace char in the first record's row text, `parse_csv`
succeeds, emits exactly 10002 newlines (10001 data lines and the marker
line), and ends with the marker line. -/
theorem parseCsvRecords_big (headers : Option (List Str)) (records : List (List Str))
    (opts : ParseOptions) (hpf : opts.preserveFormatting = false)
    (hlen : 10000 < records.length)
    (hnl : ∀ r ∈ records, (csvRowText opts r).count '\n' = 0)
    (r0 : List Str) (hr0 : records.head? = some r0)
    (c0 : Char) (hc0 : c0 ∈ csvRowText opts r0) (hw0 : rustIsWhitespace c0 = false) :
    ∃ out, parseCsvRecords headers records opts = Except.ok out ∧
      out.count '\n' = 10002 ∧ ∃ pre, out = pre ++ csvMarker ++ strOf "\n" := by
  cases records with
  | nil => simp at hlen
  | cons r1 rest =>
    have hr1 : r0 = r1 := by
      have := hr0
      simp at this
      exact this.symm
    subst hr1
    have hT1 : csvLoop opts (r0 :: rest) 0 [] =
        csvLoop opts rest 1 ([] ++ csvRowText opts r0 ++ strOf "\n") := by
      simp only [csvLoop]
      rw [if_neg (by omega)]
    obtain ⟨suf, hsuf⟩ := csvLoop_extends opts rest 1 ([] ++ csvRowText opts r0 ++ strOf "\n")
    have hmem : c0 ∈ csvLoop opts (r0 :: rest) 0 [] := by
      rw [hT1, hsuf]
      simp [hc0]
    have htrim : trimStr (csvLoop opts (r0 :: rest) 0 []) ≠ [] :=
      trimStr_ne_nil_of_mem hmem hw0
    refine ⟨csvLoop opts (r0 :: rest) 0 [], ?_, ?_, ?_⟩
    · unfold parseCsvRecords
      rw [hpf]
      simp only [Bool.false_eq_true, if_false]
      rw [if_neg htrim]
    · rw [csvLoop_count opts (r0 :: rest) 0 [] (by omega) hnl]
      simp only [List.length_cons] at hlen ⊢
      rw [if_pos (by omega)]
      simp
      omega
    · exact csvLoop_marker opts (r0 :: rest) 0 [] (by simpa using hlen) (by omega)

/-- C5 (counterexample): on a CSV input with 10001 data records the
output contains 10002 newline-terminated lines (10001 data lines plus
the marker), not the claimed 10000 data lines plus marker (10001): the
loop increments `row_count` after pushing a row and only then compares
`row_count > 10000`, so the 10001st row is emitted before truncation. -/
theorem c5_counterexample_10001_rows :
    ∃ out, parseCsvRecords none (List.replicate 10001 [strOf "r"]) defaultParseOptions =
        Except.ok out ∧
      out.count '\n' = 10002 ∧ ¬ out.count '\n' = 10001 := by
  obtain ⟨out, hok, hcount, _⟩ :=
    parseCsvRecords_big none (List.replicate 10001 [strOf "r"]) defaultParseOptions rfl
      (by rw [List.length_replicate]; omega)
      (fun r hr => by rw [List.eq_of_mem_replicate hr]; decide)
      [strOf "r"]
      (by rw [show (10001 : Nat) = 10000 + 1 by norm_num, List.replicate_succ]; rfl)
      'r' (by decide) (by decide)
  exact ⟨out, hok, hcount, by omega⟩

/-- C5 (amended): CSV parsing caps its output at 10,001 data rows: for
every CSV input with more than 10,000 data records (newline-free row
texts, non-blank first row, default flattened formatting), parsing
succeeds and the output contains exactly 10,002 newline-terminated
lines — 10,001 data lines — and ends with the literal marker line
"... (truncated, too many rows)". -/
theorem c5_truncation_after_10001_rows (headers : Option (List Str))
    (records : List (List Str)) (opts : ParseOptions)
    (hpf : opts.preserveFormatting = false) (hlen : 10000 < records.length)
    (hnl : ∀ r ∈ records, (csvRowText opts r).count '\n' = 0)
    (r0 : List Str) (hr0 : records.head? = some r0)
    (c0 : Char) (hc0 : c0 ∈ csvRowText opts r0) (hw0 : rustIsWhitespace c0 = false) :
    ∃ out, parseCsvRecords headers records opts = Except.ok out ∧
      out.count '\n' = 10002 ∧ ∃ pre, out = pre ++ csvMarker ++ strOf "\n" :=
  parseCsvRecords_big headers records opts hpf hlen hnl r0 hr0 c0 hc0 hw0

/-- C5 (witness): the amended truncation statement instantiated on the
10001-record input. -/
theorem c5_truncation_witness :
    defaultParseOptions.preserveFormatting = false ∧
    10000 < (List.replicate 10001 [strOf "r"]).length ∧
    (∃ out, parseCsvRecords none (List.replicate 10001 [strOf "r"]) defaultParseOptions =
        Except.ok out ∧
      out.count '\n' = 10002 ∧ ∃ pre, out = pre ++ csvMarker ++ strOf "\n") := by
  refine ⟨rfl, by rw [List.length_replicate]; omega, ?_⟩
  exact c5_truncation_after_10001_rows none (List.replicate 10001 [strOf "r"])
    defaultParseOptions rfl (by rw [List.length_replicate]; omega)
    (fun r hr => by rw [List.eq_of_mem_replicate hr]; decide)
    [strOf "r"]
    (by rw [show (10001 : Nat) = 10000 + 1 by norm_num, List.replicate_succ]; rfl)
    'r' (by decide) (by decide)

/-- C8 (counterexample): `clean_text` is not idempotent.  On
"a\n \n \n \nb" the blank lines contain spaces, so the newline-run
collapse sees no run of three; line trimming then creates the run
"\n\n\n\n", which only a second application collapses to a paragraph
break. -/
theorem c8_clean_text_not_idempotent :
    cleanText (strOf "a\n \n \n \nb") none = strOf "a\n\n\n\nb" ∧
    cleanText (cleanText (strOf "a\n \n \n \nb") none) none = strOf "a\n\nb" ∧
    ¬ cleanText (cleanText (strOf "a\n \n \n \nb") none) none =
        cleanText (strOf "a\n \n \n \nb") none := by
  exact ⟨by decide, by decide, by decide⟩

/-- Helper: `replace` is the identity when some char of the pattern does
not occur in the subject. -/
theorem replaceGo_not_occurs {pat rep : Str} {d : Char} (hd : d ∈ pat) :
    ∀ (f : Nat) (s : Str), d ∉ s → replaceGo pat rep f s = s := by
  intro f
  induction f with
  | zero => intro s _; cases s <;> rfl
  | succ f ih =>
    intro s hds
    cases s with
    | nil => rfl
    | cons c cs =>
      have hnp : ¬ (pat ≠ [] ∧ pat.isPrefixOf (c :: cs) = true) := by
        rintro ⟨-, hpre⟩
        exact hds ((List.isPrefixOf_iff_prefix.mp hpre).subset hd)
      show (if pat ≠ [] ∧ pat.isPrefixOf (c :: cs) = true then _ else _) = _
      rw [if_neg hnp]
      rw [ih cs (fun hm => hds (List.mem_cons_of_mem c hm))]

/-- Helper: wrapper form of `replaceGo_not_occurs`. -/
theorem replaceList_not_occurs {pat rep : Str} {d : Char} (hd : d ∈ pat) (s : Str)
    (hds : d ∉ s) : replaceList pat rep s = s :=
  replaceGo_not_occurs hd s.length s hds

/-- Helper: the encoding-repair table is the identity on ASCII text, as
every pattern starts with a non-ASCII char. -/
theorem fixEncodingIssues_ascii {s : Str} (hA : allAscii s = true) : fixEncodingIssues s = s := by
  have hna := allAscii_iff.mp hA
  have h1 : ('â' : Char) ∉ s := fun hm => absurd (hna _ hm) (by decide)
  have h2 : ('Ã' : Char) ∉ s := fun hm => absurd (hna _ hm) (by decide)
  show List.foldl (fun acc pr => replaceList pr.1 pr.2 acc) s encodingReplacements = s
  rw [encodingReplacements]
  simp only [List.foldl_cons, List.foldl_nil]
  rw [replaceList_not_occurs (d := 'â') (by decide) s h1]
  rw [replaceList_not_occurs (d := 'â') (by decide) s h1]
  rw [replaceList_not_occurs (d := 'â') (by decide) s h1]
  rw [replaceList_not_occurs (d := 'â') (by decide) s h1]
  rw [replaceList_not_occurs (d := 'â') (by decide) s h1]
  rw [replaceList_not_occurs (d := 'â') (by decide) s h1]
  rw [replaceList_not_occurs (d := 'Ã') (by decide) s h2]
  rw [replaceList_not_occurs (d := 'Ã') (by decide) s h2]
  rw [replaceList_not_occurs (d := 'Ã') (by decide) s h2]
  rw [replaceList_not_occurs (d := 'Ã') (by decide) s h2]
  rw [replaceList_not_occurs (d := 'Ã') (by decide) s h2]

/-- Helper: line-ending normalization is the identity without carriage
returns. -/
theorem normalizeLineEndingsF_no_cr {s : Str} (h : '\r' ∉ s) : normalizeLineEndingsF s = s := by
  unfold normalizeLineEndingsF
  rw [replaceList_not_occurs (d := '\r') (by decide) s h]
  have hmap : ∀ c ∈ s, (if c = '\r' then '\n' else c) = c := by
    intro c hc
    refine if_neg (fun he => h ?_)
    rw [← he]
    exact hc
  rw [List.map_congr_left hmap]
  simp

/-- Helper: newline-run collapsing is the identity without newlines. -/
theorem collapseNLGo_no_nl : ∀ (f : Nat) (s : Str), s.length ≤ f → '\n' ∉ s →
    collapseNLGo f s = s := by
  intro f
  induction f with
  | zero =>
    intro s hf _
    cases s with
    | nil => rfl
    | cons c cs => simp at hf
  | succ f ih =>
    intro s hf hn
    cases s with
    | nil => rfl
    | cons c cs =>
      have hc : ¬ c = '\n' := fun he => hn (he ▸ List.mem_cons_self c cs)
      show (if c = '\n' then _ else _) = _
      rw [if_neg hc]
      rw [ih cs (by simpa using hf) (fun hm => hn (List.mem_cons_of_mem c hm))]

/-- Helper: chars of `collapseSpaceTabs` output come from the input or
are the space char. -/
theorem collapseSTGo_mem : ∀ (f : Nat) (s : Str) (c : Char),
    c ∈ collapseSTGo f s → c ∈ s ∨ c = ' ' := by
  intro f
  induction f with
  | zero =>
    intro s c hc
    cases s with
    | nil => simp [collapseSTGo] at hc
    | cons a as => exact Or.inl hc
  | succ f ih =>
    intro s c hc
    cases s with
    | nil => simp [collapseSTGo] at hc
    | cons a as =>
      by_cases ha : isSpaceTab a = true
      · rw [show collapseSTGo (f + 1) (a :: as) =
            ' ' :: collapseSTGo f (as.dropWhile isSpaceTab) by
              show (if isSpaceTab a = true then _ else _) = _
              rw [if_pos ha]] at hc
        rcases List.mem_cons.mp hc with he | hm
        · exact Or.inr he
        · rcases ih _ c hm with hm2 | he2
          · exact Or.inl (List.mem_cons_of_mem a
              ((List.dropWhile_suffix isSpaceTab).sublist.subset hm2))
          · exact Or.inr he2
      · rw [show collapseSTGo (f + 1) (a :: as) = a :: collapseSTGo f as by
              show (if isSpaceTab a = true then _ else _) = _
              rw [if_neg ha]] at hc
        rcases List.mem_cons.mp hc with he | hm
        · exact Or.inl (he ▸ List.mem_cons_self a as)
        · rcases ih as c hm with hm2 | he2
          · exact Or.inl (List.mem_cons_of_mem a hm2)
          · exact Or.inr he2

/-- Helper: `collapseSpaceTabs` output contains no tab. -/
theorem collapseSTGo_no_tab : ∀ (f : Nat) (s : Str), s.length ≤ f →
    '\t' ∉ collapseSTGo f s := by
  intro f
  induction f with
  | zero =>
    intro s hf
    cases s with
    | nil => simp [collapseSTGo]
    | cons a as => simp at hf
  | succ f ih =>
    intro s hf
    cases s with
    | nil => simp [collapseSTGo]
    | cons a as =>
      by_cases ha : isSpaceTab a = true
      · show '\t' ∉ (if isSpaceTab a = true then _ else _)
        rw [if_pos ha]
        intro hc
        rcases List.mem_cons.mp hc with he | hm
        · exact absurd he.symm (by decide)
        · exact ih (as.dropWhile isSpaceTab)
            (le_trans (List.dropWhile_suffix isSpaceTab).length_le (by simpa using hf)) hm
      · show '\t' ∉ (if isSpaceTab a = true then _ else _)
        rw [if_neg ha]
        intro hc
        rcases List.mem_cons.mp hc with he | hm
        · apply absurd ha
          rw [← he]
          decide
        · exact ih as (by simpa using hf) hm

/-- Helper: the head of a `dropWhile` result fails the test. -/
theorem dropWhile_head_not {p : Char → Bool} : ∀ {s : Str} {c : Char},
    (s.dropWhile p).head? = some c → p c = false := by
  intro s
  induction s with
  | nil => intro c hc; simp at hc
  | cons a as ih =>
    intro c hc
    rw [List.dropWhile_cons] at hc
    by_cases hp : p a = true
    · rw [if_pos hp] at hc
      exact ih hc
    · rw [if_neg hp] at hc
      simp at hc
      rw [← hc]
      simpa using hp

/-- Helper: `noTwoST` as an adjacency chain. -/
theorem noTwoST_iff_chain {s : Str} :
    noTwoST s = true ↔
      List.Chain' (fun a b => ¬(isSpaceTab a = true ∧ isSpaceTab b = true)) s := by
  induction s with
  | nil => simp [noTwoST]
  | cons a as ih =>
    cases as with
    | nil => simp [noTwoST]
    | cons b t =>
      rw [List.chain'_cons, ← ih]
      show ((!(isSpaceTab a && isSpaceTab b)) && noTwoST (b :: t)) = true ↔ _
      constructor
      · intro h
        have h2 := (Bool.and_eq_true _ _).mp h
        refine ⟨?_, h2.2⟩
        intro hab
        rw [hab.1, hab.2] at h2
        simpa using h2.1
      · rintro ⟨hr, hch⟩
        refine (Bool.and_eq_true _ _).mpr ⟨?_, hch⟩
        by_cases ha : isSpaceTab a = true
        · by_cases hb : isSpaceTab b = true
          · exact absurd ⟨ha, hb⟩ hr
          · rw [ha]
            simpa using hb
        · rw [show isSpaceTab a = false by simpa using ha]
          rfl

/-- Helper: `noTwoST` is preserved by trimming (a suffix, a reverse and
another suffix of the original adjacency chain). -/
theorem noTwoST_trimStr {s : Str} (h : noTwoST s = true) : noTwoST (trimStr s) = true := by
  rw [noTwoST_iff_chain] at h ⊢
  have hsym : ∀ (l : Str),
      List.Chain' (fun a b => ¬(isSpaceTab a = true ∧ isSpaceTab b = true)) l →
      List.Chain' (fun a b => ¬(isSpaceTab a = true ∧ isSpaceTab b = true)) l.reverse := by
    intro l hl
    rw [List.chain'_reverse]
    exact hl.imp (fun a b hab => fun hba => hab ⟨hba.2, hba.1⟩)
  unfold trimStr
  exact hsym _ ((hsym _ (h.suffix (List.dropWhile_suffix _))).suffix (List.dropWhile_suffix _))

/-- Helper: `collapseSpaceTabs` output has no two adjacent spaces. -/
theorem collapseSTGo_noTwo : ∀ (f : Nat) (s : Str), s.length ≤ f →
    noTwoST (collapseSTGo f s) = true := by
  intro f
  induction f with
  | zero =>
    intro s hf
    cases s with
    | nil => rfl
    | cons a as => simp at hf
  | succ f ih =>
    intro s hf
    cases s with
    | nil => rfl
    | cons a as =>
      by_cases ha : isSpaceTab a = true
      · rw [show collapseSTGo (f + 1) (a :: as) =
            ' ' :: collapseSTGo f (as.dropWhile isSpaceTab) by
              show (if isSpaceTab a = true then _ else _) = _
              rw [if_pos ha]]
        have hlen2 : (as.dropWhile isSpaceTab).length ≤ f :=
          le_trans (List.dropWhile_suffix isSpaceTab).length_le (by simpa using hf)
        cases hgo : collapseSTGo f (as.dropWhile isSpaceTab) with
        | nil => rfl
        | cons x xs =>
          have hx : isSpaceTab x = false := by
            cases hdw : as.dropWhile isSpaceTab with
            | nil =>
              rw [hdw] at hgo
              cases f <;> simp [collapseSTGo] at hgo
            | cons d ds =>
              have hd : isSpaceTab d = false := dropWhile_head_not (by rw [hdw]; rfl)
              have hxd : x = d := by
                rw [hdw] at hgo
                cases f with
                | zero =>
                  rw [hdw] at hlen2
                  simp at hlen2
                | succ f2 =>
                  rw [show collapseSTGo (f2 + 1) (d :: ds) = d :: collapseSTGo f2 ds by
                        show (if isSpaceTab d = true then _ else _) = _
                        rw [if_neg (by simp [hd])]] at hgo
                  exact (List.cons.injEq _ _ _ _ ▸ hgo).1.symm
              rw [hxd]
              exact hd
          show ((!(isSpaceTab ' ' && isSpaceTab x)) && noTwoST (x :: xs)) = true
          rw [hx]
          have := ih (as.dropWhile isSpaceTab) hlen2
          rw [hgo] at this
          simpa using this
      · rw [show collapseSTGo (f + 1) (a :: as) = a :: collapseSTGo f as by
              show (if isSpaceTab a = true then _ else _) = _
              rw [if_neg ha]]
        cases hgo : collapseSTGo f as with
        | nil => rfl
        | cons x xs =>
          show ((!(isSpaceTab a && isSpaceTab x)) && noTwoST (x :: xs)) = true
          rw [show isSpaceTab a = false by simpa using ha]
          have := ih as (by simpa using hf)
          rw [hgo] at this
          simpa using this

/-- Helper: `collapseSpaceTabs` is the identity on tab-free text without
adjacent spaces. -/
theorem collapseSTGo_id : ∀ (f : Nat) (s : Str), s.length ≤ f → noTwoST s = true →
    '\t' ∉ s → collapseSTGo f s = s := by
  intro f
  induction f with
  | zero =>
    intro s hf _ _
    cases s with
    | nil => rfl
    | cons a as => simp at hf
  | succ f ih =>
    intro s hf h2 ht
    cases s with
    | nil => rfl
    | cons a as =>
      by_cases ha : isSpaceTab a = true
      · have hsp : a = ' ' := by
          rcases (by simpa [isSpaceTab] using ha : a = ' ' ∨ a = '\t') with h | h
          · exact h
          · exact absurd (h ▸ List.mem_cons_self a as) ht
        have hdw : as.dropWhile isSpaceTab = as := by
          cases as with
          | nil => rfl
          | cons b bs =>
            have hb : isSpaceTab b = false := by
              have := (Bool.and_eq_true _ _).mp h2
              have h1 := this.1
              rw [ha] at h1
              simpa using h1
            rw [List.dropWhile_cons, if_neg (by simp [hb])]
        show (if isSpaceTab a = true then _ else _) = _
        rw [if_pos ha, hdw, hsp]
        have h2t : noTwoST as = true := by
          cases as with
          | nil => rfl
          | cons b bs => exact ((Bool.and_eq_true _ _).mp h2).2
        rw [ih as (by simpa using hf) h2t (fun hm => ht (List.mem_cons_of_mem a hm))]
      · show (if isSpaceTab a = true then _ else _) = _
        rw [if_neg ha]
        have h2t : noTwoST as = true := by
          cases as with
          | nil => rfl
          | cons b bs => exact ((Bool.and_eq_true _ _).mp h2).2
        rw [ih as (by simpa using hf) h2t (fun hm => ht (List.mem_cons_of_mem a hm))]

/-- Helper: `dropWhile` is the identity when the head fails the test. -/
theorem dropWhile_eq_self_of_head {p : Char → Bool} {s : Str}
    (h : ∀ c, s.head? = some c → p c = false) : s.dropWhile p = s := by
  cases s with
  | nil => rfl
  | cons a as =>
    rw [List.dropWhile_cons, if_neg (by simp [h a rfl])]

/-- Helper: a string whose ends are not whitespace is already trimmed. -/
theorem trimStr_of_clean {s : Str}
    (hh : ∀ c, s.head? = some c → rustIsWhitespace c = false)
    (hl : ∀ c, s.getLast? = some c → rustIsWhitespace c = false) : trimStr s = s := by
  unfold trimStr
  rw [dropWhile_eq_self_of_head hh]
  rw [dropWhile_eq_self_of_head (fun c hc => hl c (by rw [← List.head?_reverse]; exact hc))]
  exact List.reverse_reverse s

/-- Helper: the last element of a string is one of its members. -/
theorem mem_of_getLast?_eq {s : Str} {c : Char} (h : s.getLast? = some c) : c ∈ s := by
  rw [← List.head?_reverse] at h
  cases hrev : s.reverse with
  | nil => rw [hrev] at h; simp at h
  | cons x xs =>
    rw [hrev] at h
    simp at h
    rw [← List.mem_reverse, hrev, ← h]
    exact List.mem_cons_self x xs

/-- Helper: a non-empty suffix has the same last element. -/
theorem getLast?_of_suffix {l₁ l₂ : Str} (h : l₁ <:+ l₂) (hne : l₁ ≠ []) :
    l₁.getLast? = l₂.getLast? := by
  obtain ⟨pre, rfl⟩ := h
  rw [← List.head?_reverse, ← List.head?_reverse, List.reverse_append]
  cases hx : l₁.reverse with
  | nil => exact absurd (by simpa using hx) hne
  | cons x xs => rfl

/-- Helper: the head of a trimmed string is not whitespace. -/
theorem trimStr_head_not_ws {s : Str} {c : Char} (h : (trimStr s).head? = some c) :
    rustIsWhitespace c = false := by
  unfold trimStr at h
  rw [List.head?_reverse] at h
  have hBne : (s.dropWhile rustIsWhitespace).reverse.dropWhile rustIsWhitespace ≠ [] := by
    intro hb
    rw [hb] at h
    simp at h
  rw [getLast?_of_suffix (List.dropWhile_suffix _) hBne, List.getLast?_reverse] at h
  exact dropWhile_head_not h

/-- Helper: the last char of a trimmed string is not whitespace. -/
theorem trimStr_getLast_not_ws {s : Str} {c : Char} (h : (trimStr s).getLast? = some c) :
    rustIsWhitespace c = false := by
  unfold trimStr at h
  rw [List.getLast?_reverse] at h
  exact dropWhile_head_not h

/-- Helper: trimming is idempotent. -/
theorem trimStr_idem (s : Str) : trimStr (trimStr s) = trimStr s :=
  trimStr_of_clean (fun _ hc => trimStr_head_not_ws hc)
    (fun _ hc => trimStr_getLast_not_ws hc)

/-- Helper: trimmed strings are made of chars of the original. -/
theorem trimStr_subset (s : Str) : ∀ c ∈ trimStr s, c ∈ s := by
  intro c hc
  unfold trimStr at hc
  rw [List.mem_reverse] at hc
  have h1 := (List.dropWhile_suffix rustIsWhitespace).sublist.subset hc
  rw [List.mem_reverse] at h1
  exact (List.dropWhile_suffix rustIsWhitespace).sublist.subset h1

/-- Helper: `str::lines` of non-empty single-line text is that line. -/
theorem rustLines_flat {s : Str} (hn : '\n' ∉ s) (hr : '\r' ∉ s) (hne : s ≠ []) :
    rustLines s = [s] := by
  unfold rustLines
  rw [if_neg hne, splitOnCharStr_no_sep hn]
  show List.map stripTrailingCR (if s.getLast? = some '\n' then [s].dropLast else [s]) = [s]
  rw [if_neg (fun hg => hn (mem_of_getLast?_eq hg))]
  simp only [List.map_cons, List.map_nil]
  rw [show stripTrailingCR s = s from
    if_neg (fun hg => hr (mem_of_getLast?_eq hg))]

/-- Helper: joining a single line is the identity. -/
theorem joinSep_single (sep : Char) (x : Str) : joinSep sep [x] = x := by
  simp [joinSep, List.intercalate]

/-- Helper: on single-line text, `normalize_whitespace` collapses
horizontal whitespace and trims. -/
theorem normalizeWhitespaceT_flat {s : Str} (hn : '\n' ∉ s) (hr : '\r' ∉ s) :
    normalizeWhitespaceT s = trimStr (collapseSpaceTabs s) := by
  have hs2n : '\n' ∉ collapseSpaceTabs s := by
    intro hm
    rcases collapseSTGo_mem s.length s '\n' hm with h | h
    · exact hn h
    · exact absurd h (by decide)
  have hs2r : '\r' ∉ collapseSpaceTabs s := by
    intro hm
    rcases collapseSTGo_mem s.length s '\r' hm with h | h
    · exact hr h
    · exact absurd h (by decide)
  have hnl : collapseNewlineRuns (collapseSpaceTabs s) = collapseSpaceTabs s :=
    collapseNLGo_no_nl _ _ (le_refl _) hs2n
  show trimStr
      (joinSep '\n' ((rustLines (collapseNewlineRuns (collapseSpaceTabs s))).map trimStr)) =
    trimStr (collapseSpaceTabs s)
  rw [hnl]
  by_cases hse : collapseSpaceTabs s = []
  · rw [hse]
    show trimStr (joinSep '\n' ((rustLines []).map trimStr)) = trimStr []
    rw [show rustLines [] = [] from rfl]
    simp [joinSep, List.intercalate]
  · rw [rustLines_flat hs2n hs2r hse]
    simp only [List.map_cons, List.map_nil]
    rw [joinSep_single]
    exact trimStr_idem _

/-- Helper: on newline-free ASCII text, `clean_text` with default
options reduces to control-char removal, horizontal-whitespace collapse
and trimming. -/
theorem cleanText_flat {t : Str} (hA : allAscii t = true) (hn : '\n' ∉ t) (hr : '\r' ∉ t) :
    cleanText t none = trimStr (collapseSpaceTabs (removeControlCharacters t)) := by
  have h0 : cleanText t none =
      normalizeWhitespaceT
        (normalizeLineEndingsF (removeControlCharacters (fixEncodingIssues (nfcModel t)))) :=
    rfl
  rw [h0, show nfcModel t = t from rfl, fixEncodingIssues_ascii hA]
  have hsub : ∀ c ∈ removeControlCharacters t, c ∈ t := fun c hc => (List.mem_filter.mp hc).1
  have hn1 : '\n' ∉ removeControlCharacters t := fun hm => hn (hsub _ hm)
  have hr1 : '\r' ∉ removeControlCharacters t := fun hm => hr (hsub _ hm)
  rw [normalizeLineEndingsF_no_cr hr1]
  exact normalizeWhitespaceT_flat hn1 hr1

/-- Helper: a control char kept by `remove_control_characters` is a
newline, tab or carriage return. -/
theorem removeControl_mem_ctl {t : Str} {c : Char} (hm : c ∈ removeControlCharacters t)
    (hctl : rustIsControl c = true) : c = '\n' ∨ c = '\t' ∨ c = '\r' := by
  have hpred := (List.mem_filter.mp hm).2
  rw [hctl] at hpred
  simp at hpred
  tauto

/-- Helper: `remove_control_characters` keeps non-control chars. -/
theorem removeControl_keeps {s : Str} (h : ∀ c ∈ s, rustIsControl c = false) :
    removeControlCharacters s = s := by
  refine List.filter_eq_self.mpr (fun c hc => ?_)
  simp [h c hc]

set_option maxHeartbeats 1000000 in
/-- C8 (amended): `clean_text` with default options is not idempotent in
general (counterexample above: blank lines holding spaces survive one
pass and collapse only on the next).  On carriage-return-free,
newline-free ASCII input a second application changes nothing. -/
theorem c8_idempotent_on_flat_ascii (t : Str) (hA : allAscii t = true)
    (hn : '\n' ∉ t) (hr : '\r' ∉ t) :
    cleanText (cleanText t none) none = cleanText t none := by
  have h1 := cleanText_flat hA hn hr
  have ht1sub : ∀ c ∈ removeControlCharacters t, c ∈ t :=
    fun c hc => (List.mem_filter.mp hc).1
  have hs1mem : ∀ c ∈ collapseSpaceTabs (removeControlCharacters t),
      c ∈ removeControlCharacters t ∨ c = ' ' :=
    fun c hc => collapseSTGo_mem _ _ c hc
  have humem : ∀ c ∈ trimStr (collapseSpaceTabs (removeControlCharacters t)),
      c ∈ collapseSpaceTabs (removeControlCharacters t) :=
    fun c hc => trimStr_subset _ c hc
  have hAu : allAscii (trimStr (collapseSpaceTabs (removeControlCharacters t))) = true := by
    refine allAscii_iff.mpr (fun c hc => ?_)
    rcases hs1mem c (humem c hc) with hm | hsp
    · exact allAscii_iff.mp hA c (ht1sub c hm)
    · rw [hsp]; decide
  have hnu : '\n' ∉ trimStr (collapseSpaceTabs (removeControlCharacters t)) := by
    intro hm
    rcases hs1mem _ (humem _ hm) with h | h
    · exact hn (ht1sub _ h)
    · exact absurd h (by decide)
  have hru : '\r' ∉ trimStr (collapseSpaceTabs (removeControlCharacters t)) := by
    intro hm
    rcases hs1mem _ (humem _ hm) with h | h
    · exact hr (ht1sub _ h)
    · exact absurd h (by decide)
  have htab : '\t' ∉ trimStr (collapseSpaceTabs (removeControlCharacters t)) := by
    intro hm
    exact collapseSTGo_no_tab (removeControlCharacters t).length (removeControlCharacters t)
      (le_refl _) (humem _ hm)
  have hctrl : removeControlCharacters
      (trimStr (collapseSpaceTabs (removeControlCharacters t))) =
      trimStr (collapseSpaceTabs (removeControlCharacters t)) := by
    refine removeControl_keeps (fun c hc => ?_)
    by_cases hctl : rustIsControl c = true
    · rcases hs1mem c (humem c hc) with hm | hsp
      · rcases removeControl_mem_ctl hm hctl with h | h | h
        · exact absurd (h ▸ hc) hnu
        · exact absurd (h ▸ hc) htab
        · exact absurd (h ▸ hc) hru
      · rw [hsp] at hctl
        exact absurd hctl (by decide)
    · simpa using hctl
  have h2u : noTwoST (trimStr (collapseSpaceTabs (removeControlCharacters t))) = true :=
    noTwoST_trimStr (collapseSTGo_noTwo (removeControlCharacters t).length
      (removeControlCharacters t) (le_refl _))
  have hcol : collapseSpaceTabs (trimStr (collapseSpaceTabs (removeControlCharacters t))) =
      trimStr (collapseSpaceTabs (removeControlCharacters t)) :=
    collapseSTGo_id _ _ (le_refl _) h2u htab
  have htrim := trimStr_idem (collapseSpaceTabs (removeControlCharacters t))
  rw [h1, cleanText_flat hAu hnu hru, hctrl, hcol, htrim]

/-- C8 (witness): idempotence on a concrete flat ASCII input. -/
theorem c8_idempotent_witness :
    allAscii (strOf "a  b") = true ∧ '\n' ∉ strOf "a  b" ∧ '\r' ∉ strOf "a  b" ∧
    cleanText (cleanText (strOf "a  b") none) none = cleanText (strOf "a  b") none := by
  refine ⟨by decide, by decide, by decide, ?_⟩
  exact c8_idempotent_on_flat_ascii (strOf "a  b") (by decide) (by decide) (by decide)
